import Mathlib

/-!
# Verification of the DeepSORT tracker core (`src/application/tools/deepsort.cpp`)

This file gives a shallow embedding, in Lean 4, of the three subsystems of the
DeepSORT tracker core:

* the Hungarian (Kuhn–Munkres) assignment solver (`HungarianAlgorithm`),
* the constant-velocity Kalman filter (`KalmanFilter`),
* the track lifecycle manager (`TrackObjectImpl` / `TrackerImpl`),

followed by theorems settling the frozen claims about the program.

Modelling conventions:

* C `double`/`float` values are embedded as elements of a linear ordered field
  (instantiated at `ℚ` for exact executable instances and at `ℝ` for the
  Kalman filter, which uses square roots).  All arithmetic performed by the
  program on the concrete counterexample inputs used below is exact in IEEE
  double/float arithmetic, so the field-valued embedding agrees with the
  machine computation there.
* The solver's working matrices (`distMatrix`, `starMatrix`, `primeMatrix`,
  `coveredColumns`, `coveredRows`) are embedded as functions `ℕ → ℕ → _` and
  `ℕ → _` updated pointwise; the program only ever reads indices inside
  `[0, nOfRows) × [0, nOfColumns)`.
* The mutually recursive steps 2a/2b/3/4/5 of the solver are driven by a
  fuel-indexed interpreter `Munkres.run`; `none` models a run that does not
  terminate within the given fuel.
-/

set_option maxHeartbeats 1000000

namespace Munkres

/-- Working state of `HungarianAlgorithm::assignmentoptimal`: the mutable copy
of the distance matrix, the star/prime matrices and the cover flags. -/
structure St (α : Type) where
  dist : ℕ → ℕ → α
  star : ℕ → ℕ → Bool
  prime : ℕ → ℕ → Bool
  covCol : ℕ → Bool
  covRow : ℕ → Bool

variable {α : Type} [LinearOrderedField α]

/-- Pointwise update of a two-index boolean matrix. -/
def upd2 (f : ℕ → ℕ → Bool) (i j : ℕ) (v : Bool) : ℕ → ℕ → Bool :=
  fun a b => if a = i ∧ b = j then v else f a b

/-- Pointwise update of a one-index boolean vector. -/
def upd1 (f : ℕ → Bool) (i : ℕ) (v : Bool) : ℕ → Bool :=
  fun a => if a = i then v else f a

/-- Index of the first `i < n` satisfying `p` (the C scan-and-`break` idiom). -/
def firstIdx (n : ℕ) (p : ℕ → Bool) : Option ℕ :=
  (List.range n).find? p

/-- `DBL_EPSILON`, the zero tolerance used by the solver. -/
def dblEpsilon : α := (1 / 2) ^ 52

/-- `DBL_MAX`, the initial value of the minimum search in step 5. -/
def dblMax : α := (2 - (1 / 2) ^ 52) * 2 ^ 1023

/-- Smallest element of row `r` (columns `0..nC`), seeded with column 0 as in
the C scan. -/
def rowMin (nC : ℕ) (d : ℕ → ℕ → α) (r : ℕ) : α :=
  (List.range nC).foldl (fun m c => if d r c < m then d r c else m) (d r 0)

/-- Smallest element of column `c` (rows `0..nR`), seeded with row 0. -/
def colMin (nR : ℕ) (d : ℕ → ℕ → α) (c : ℕ) : α :=
  (List.range nR).foldl (fun m r => if d r c < m then d r c else m) (d 0 c)

/-- Row-reduction phase when `nOfRows <= nOfColumns`: subtract each row's
minimum from that row. -/
def prelimRows (nR nC : ℕ) (st : St α) : St α :=
  (List.range nR).foldl (fun s r =>
    let m := rowMin nC s.dist r
    let d := s.dist
    { s with dist := fun a b => if a = r then d a b - m else d a b }) st

/-- Column-reduction phase when `nOfRows > nOfColumns`. -/
def prelimCols (nR nC : ℕ) (st : St α) : St α :=
  (List.range nC).foldl (fun s c =>
    let m := colMin nR s.dist c
    let d := s.dist
    { s with dist := fun a b => if b = c then d a b - m else d a b }) st

/-- Steps 1 and 2a in the `nOfRows <= nOfColumns` branch: for each row, star
the first zero lying in an uncovered column and cover that column. -/
def starInitRows (nR nC : ℕ) (eps : α) (st : St α) : St α :=
  (List.range nR).foldl (fun s r =>
    match firstIdx nC (fun c => decide (|s.dist r c| < eps) && !s.covCol c) with
    | some c => { s with star := upd2 s.star r c true, covCol := upd1 s.covCol c true }
    | none => s) st

/-- Steps 1 and 2a in the `nOfRows > nOfColumns` branch: for each column, star
the first zero lying in an uncovered row, covering both its row and column. -/
def starInitCols (nR nC : ℕ) (eps : α) (st : St α) : St α :=
  (List.range nC).foldl (fun s c =>
    match firstIdx nR (fun r => decide (|s.dist r c| < eps) && !s.covRow r) with
    | some r =>
      { s with star := upd2 s.star r c true,
               covCol := upd1 s.covCol c true,
               covRow := upd1 s.covRow r true }
    | none => s) st

/-- The `coveredRows` reset after the column-wise preliminary step, and at the
end of step 4. -/
def resetRows (st : St α) : St α :=
  { st with covRow := fun _ => false }

/-- Step 2a: cover every column (of index `< nC`) containing a starred zero. -/
def coverStarCols (nR nC : ℕ) (st : St α) : St α :=
  { st with covCol := fun c =>
      st.covCol c || (decide (c < nC) && (List.range nR).any fun r => st.star r c) }

/-- Number of covered columns, as counted at the start of step 2b. -/
def countCov (nC : ℕ) (st : St α) : ℕ :=
  (List.range nC).countP fun c => st.covCol c

/-- Result of one sweep of step 3's column loop: either the sweep found an
uncovered zero in a row with no starred zero (go to step 4), or it finished,
remembering whether it changed any cover (`zerosFound`). -/
inductive SweepRes (α : Type) where
  | toStep4 (row col : ℕ) (st : St α)
  | done (st : St α) (found : Bool)

/-- One sweep of step 3 over the given list of columns.  In each uncovered
column the first zero in an uncovered row is primed; if its row holds a
starred zero, the row is covered and the star's column uncovered, otherwise
control moves to step 4. -/
def sweepGo (nR nC : ℕ) (eps : α) : List ℕ → St α → Bool → SweepRes α
  | [], st, flag => .done st flag
  | c :: cs, st, flag =>
    if st.covCol c then sweepGo nR nC eps cs st flag
    else
      match firstIdx nR (fun r => !st.covRow r && decide (|st.dist r c| < eps)) with
      | none => sweepGo nR nC eps cs st flag
      | some r =>
        let st1 := { st with prime := upd2 st.prime r c true }
        match firstIdx nC (fun c2 => st1.star r c2) with
        | none => .toStep4 r c st1
        | some starCol =>
          sweepGo nR nC eps cs
            { st1 with covRow := upd1 st1.covRow r true,
                       covCol := upd1 st1.covCol starCol false } true

/-- The augmenting-path loop of step 4.  `star`/`prime` are the matrices at
entry (the C code reads `starMatrix` and `primeMatrix`, which it does not
modify during the loop, and writes `newStarMatrix`, here `ns`).  If a row has
no primed zero, the C code writes at column index `nOfColumns`; the functional
embedding performs the same out-of-range write, which is invisible to every
in-range read. -/
def augmentGo (nR nC : ℕ) (star prime : ℕ → ℕ → Bool) :
    ℕ → (ℕ → ℕ → Bool) → ℕ → Option (ℕ → ℕ → Bool)
  | 0, _, _ => none
  | f + 1, ns, starCol =>
    match firstIdx nR (fun r => star r starCol) with
    | none => some ns
    | some starRow =>
      let primeCol := (firstIdx nC (fun c => prime starRow c)).getD nC
      augmentGo nR nC star prime f
        (upd2 (upd2 ns starRow starCol false) starRow primeCol true) primeCol

/-- Step 4: star the uncovered zero `(row, col)`, flip the alternating path of
starred and primed zeros, then erase all primes and uncover all rows. -/
def step4run (nR nC : ℕ) (fuel : ℕ) (st : St α) (row col : ℕ) : Option (St α) :=
  (augmentGo nR nC st.star st.prime fuel (upd2 st.star row col true) col).map fun ns =>
    resetRows { st with star := ns, prime := fun _ _ => false }

/-- Step 5: find the smallest uncovered element `h` (seeded with `DBL_MAX`),
add it to every covered row and subtract it from every uncovered column. -/
def adjust (nR nC : ℕ) (hmax : α) (st : St α) : St α :=
  let h := (List.range nR).foldl (fun m r =>
    if st.covRow r then m
    else (List.range nC).foldl (fun m2 c =>
      if st.covCol c then m2
      else if st.dist r c < m2 then st.dist r c else m2) m) hmax
  let d1 : ℕ → ℕ → α := fun a b => if st.covRow a then st.dist a b + h else st.dist a b
  { st with dist := fun a b => if !st.covCol b then d1 a b - h else d1 a b }

/-- Control points of the mutually recursive steps of the solver. -/
inductive Phase where
  | p2a | p2b | p3 | p4 (row col : ℕ) | p5

/-- Fuel-indexed interpreter for the step 2a/2b/3/4/5 recursion.  `none`
models a run that does not terminate within `fuel` transitions. -/
def run (nR nC minDim : ℕ) (eps hmax : α) : ℕ → Phase → St α → Option (St α)
  | 0, _, _ => none
  | f + 1, ph, st =>
    match ph with
    | .p2a => run nR nC minDim eps hmax f .p2b (coverStarCols nR nC st)
    | .p2b =>
      if countCov nC st = minDim then some st
      else run nR nC minDim eps hmax f .p3 st
    | .p3 =>
      match sweepGo nR nC eps (List.range nC) st false with
      | .toStep4 r c st1 => run nR nC minDim eps hmax f (.p4 r c) st1
      | .done st1 true => run nR nC minDim eps hmax f .p3 st1
      | .done st1 false => run nR nC minDim eps hmax f .p5 st1
    | .p4 r c =>
      match step4run nR nC (f + 1) st r c with
      | none => none
      | some st1 => run nR nC minDim eps hmax f .p2a st1
    | .p5 => run nR nC minDim eps hmax f .p3 (adjust nR nC hmax st)

/-- `HungarianAlgorithm::buildassignmentvector`: row `r` is assigned the first
column whose cell is starred, `-1` if none. -/
def buildassignmentvector (nR nC : ℕ) (st : St α) : List ℤ :=
  (List.range nR).map fun r =>
    match firstIdx nC (fun c => st.star r c) with
    | some c => (c : ℤ)
    | none => -1

/-- `HungarianAlgorithm::computeassignmentcost`: total cost of the assignment
over the ORIGINAL input matrix. -/
def computeassignmentcost (nR : ℕ) (distIn : ℕ → ℕ → α) (asg : List ℤ) : α :=
  (List.range nR).foldl (fun acc r =>
    let c := asg.getD r (-1)
    if 0 ≤ c then acc + distIn r c.toNat else acc) 0

/-- `HungarianAlgorithm::assignmentoptimal`: preliminary reduction and initial
starring, then the step recursion, then assignment extraction and costing. -/
def assignmentoptimal (fuel nR nC : ℕ) (eps hmax : α) (distIn : ℕ → ℕ → α) :
    Option (List ℤ × α) :=
  let st0 : St α := ⟨distIn, fun _ _ => false, fun _ _ => false,
                     fun _ => false, fun _ => false⟩
  let st1 := if nR ≤ nC then starInitRows nR nC eps (prelimRows nR nC st0)
             else resetRows (starInitCols nR nC eps (prelimCols nR nC st0))
  let minDim := if nR ≤ nC then nR else nC
  (run nR nC minDim eps hmax fuel .p2b st1).map fun stf =>
    let asg := buildassignmentvector nR nC stf
    (asg, computeassignmentcost nR distIn asg)

/-- `HungarianAlgorithm::Solve`.  The C code reads `DistMatrix[0].size()`
unconditionally; on an empty matrix this is an out-of-bounds access, modelled
by `none`.  `none` is also returned when the fuel is exhausted. -/
def Solve (fuel : ℕ) (mat : List (List α)) : Option (List ℤ × α) :=
  if mat.isEmpty then none
  else
    assignmentoptimal fuel mat.length (mat.headI).length dblEpsilon dblMax
      (fun r c => (mat.getD r []).getD c 0)

end Munkres

/-! ## The DeepSORT data model and Kalman filter -/

namespace DS

/-- Modelled from the spec: `Box`, an axis-aligned rectangle with edges
`(left, top, right, bottom)`; the class itself lives in the missing header
`deepsort.hpp`.  Derived quantities per the spec: `center = ((l+r)/2,
(t+b)/2)`, `width = r-l`, `height = b-t`. -/
structure Box where
  left : ℝ
  top : ℝ
  right : ℝ
  bottom : ℝ

/-- Modelled from the spec: x coordinate of `Box::center()`. -/
noncomputable def Box.centerX (b : Box) : ℝ := (b.left + b.right) / 2

/-- Modelled from the spec: y coordinate of `Box::center()`. -/
noncomputable def Box.centerY (b : Box) : ℝ := (b.top + b.bottom) / 2

/-- Modelled from the spec: `Box::width()`. -/
noncomputable def Box.width (b : Box) : ℝ := b.right - b.left

/-- Modelled from the spec: `Box::height()`. -/
noncomputable def Box.height (b : Box) : ℝ := b.bottom - b.top

/-- `BBoxXYAH`: the measurement parameterisation `(cx, cy, a, h)`. -/
structure BBoxXYAH where
  center_x : ℝ
  center_y : ℝ
  aspect_ratio : ℝ
  height : ℝ

/-- The `BBoxXYAH(const Box&)` constructor: centre, `height = box.height()`,
`aspect_ratio = box.width() / height`. -/
noncomputable def toXYAH (b : Box) : BBoxXYAH :=
  ⟨b.centerX, b.centerY, b.width / b.height, b.height⟩

/-- The measurement as a 4-vector, in the order the filter writes it
(`matrix_boxah << center_x, center_y, aspect_ratio, height`). -/
noncomputable def measVec (m : BBoxXYAH) : Fin 4 → ℝ :=
  ![m.center_x, m.center_y, m.aspect_ratio, m.height]

/-- `distance(box, box2)`: Euclidean distance of the two centres (`hypot`). -/
noncomputable def distance (b b2 : Box) : ℝ :=
  Real.sqrt ((b.centerX - b2.centerX) ^ 2 + (b.centerY - b2.centerY) ^ 2)

/-- `chi2inv95_2[3]`, the 4-dof chi-square 95% quantile used for gating. -/
noncomputable def chi2inv95_4 : ℝ := 9.4877

def std_weight_position : ℚ := 1 / 20
def std_weight_velocity : ℚ := 1 / 10

/-- `motion_mat_`: the 8×8 identity with `F(i, 4+i) = 1` for `i < 4`. -/
def motion_mat : Matrix (Fin 8) (Fin 8) ℝ :=
  Matrix.of fun i j => if j = i then 1 else if (j : ℕ) = (i : ℕ) + 4 then 1 else 0

/-- `update_mat_`: the rectangular 4×8 identity (selector of the first four
state components). -/
def update_mat : Matrix (Fin 4) (Fin 8) ℝ :=
  Matrix.of fun i j => if (j : ℕ) = (i : ℕ) then 1 else 0

/-- `KalmanFilter::project`: measurement-space mean and covariance. -/
noncomputable def project (mean : Fin 8 → ℝ) (covariance : Matrix (Fin 8) (Fin 8) ℝ) :
    (Fin 4 → ℝ) × Matrix (Fin 4) (Fin 4) ℝ :=
  let wp : ℝ := (std_weight_position : ℚ)
  let std_vel : Fin 4 → ℝ := ![wp * mean 3, wp * mean 3, 5e-1, wp * mean 3]
  let innovation_cov := Matrix.diagonal fun i => (std_vel i) ^ 2
  (update_mat.mulVec mean,
   update_mat * covariance * update_mat.transpose + innovation_cov)

/-- The lower-triangular Cholesky factor of a 4×4 matrix, computed by the
standard column-by-column formulas (the idealisation of `Eigen::LLT` on a
positive-definite input). -/
noncomputable def cholesky4 (p : Matrix (Fin 4) (Fin 4) ℝ) : Matrix (Fin 4) (Fin 4) ℝ :=
  let l00 := Real.sqrt (p 0 0)
  let l10 := p 1 0 / l00
  let l20 := p 2 0 / l00
  let l30 := p 3 0 / l00
  let l11 := Real.sqrt (p 1 1 - l10 ^ 2)
  let l21 := (p 2 1 - l20 * l10) / l11
  let l31 := (p 3 1 - l30 * l10) / l11
  let l22 := Real.sqrt (p 2 2 - l20 ^ 2 - l21 ^ 2)
  let l32 := (p 3 2 - l30 * l20 - l31 * l21) / l22
  let l33 := Real.sqrt (p 3 3 - l30 ^ 2 - l31 ^ 2 - l32 ^ 2)
  !![l00, 0, 0, 0; l10, l11, 0, 0; l20, l21, l22, 0; l30, l31, l32, l33]

/-- `KalmanFilter::ma_distance`.  The source computes `squared_maha` twice;
the first value (via `llt().solve`) is overwritten, and the returned one is
`sum_j ((dᵀ · L⁻¹) j)²` where `L = matrixL()` of the Cholesky factorisation
of the projected covariance and `L⁻¹` is `Eigen`'s exact inverse (idealised
here by `Matrix.inv`).  In the `only_position` branch the source returns an
uninitialised value; the tracker never takes that branch, embedded as `0`. -/
noncomputable def ma_distance (mean : Fin 8 → ℝ) (covariance : Matrix (Fin 8) (Fin 8) ℝ)
    (boxah : BBoxXYAH) (only_position : Bool) : ℝ :=
  let pr := project mean covariance
  if only_position then 0
  else
    let d : Fin 4 → ℝ := fun i => measVec boxah i - pr.1 i
    let a := cholesky4 pr.2
    let a_inv := a⁻¹
    let zz : Fin 4 → ℝ := fun j => ∑ i, d i * a_inv i j
    ∑ j, (zz j) ^ 2

/-- `KalmanFilter::predict`: propagate by the constant-velocity model and add
the process noise (whose scale reads `mean(3)` before the mean is updated). -/
noncomputable def kf_predict (mean : Fin 8 → ℝ) (covariance : Matrix (Fin 8) (Fin 8) ℝ) :
    (Fin 8 → ℝ) × Matrix (Fin 8) (Fin 8) ℝ :=
  let wp : ℝ := (std_weight_position : ℚ)
  let wv : ℝ := (std_weight_velocity : ℚ)
  let std_pos_vel : Fin 8 → ℝ :=
    ![wp * mean 3, wp * mean 3, 1e-1, wp * mean 3,
      wv * mean 3, wv * mean 3, 5e-1, wv * mean 3]
  let motion_cov := Matrix.diagonal fun i => (std_pos_vel i) ^ 2
  (motion_mat.mulVec mean,
   motion_mat * covariance * motion_mat.transpose + motion_cov)

/-- `KalmanFilter::update`: the measurement update, with `Eigen`'s exact
inverse of the projected covariance idealised by `Matrix.inv`. -/
noncomputable def kf_update (boxah : BBoxXYAH) (mean : Fin 8 → ℝ)
    (covariance : Matrix (Fin 8) (Fin 8) ℝ) :
    (Fin 8 → ℝ) × Matrix (Fin 8) (Fin 8) ℝ :=
  let pr := project mean covariance
  let cov_inv := pr.2⁻¹
  let kalman_gain := covariance * update_mat.transpose * cov_inv
  let innovation : Fin 4 → ℝ := fun i => measVec boxah i - pr.1 i
  (fun i => mean i + kalman_gain.mulVec innovation i,
   covariance - kalman_gain * update_mat * covariance)

/-- `KalmanFilter::initiate`: the measurement with zero velocities, and a
diagonal covariance of squared standard deviations. -/
noncomputable def initiate (boxah : BBoxXYAH) :
    (Fin 8 → ℝ) × Matrix (Fin 8) (Fin 8) ℝ :=
  let wp : ℝ := (std_weight_position : ℚ)
  let wv : ℝ := (std_weight_velocity : ℚ)
  let h := boxah.height
  let mean : Fin 8 → ℝ :=
    ![boxah.center_x, boxah.center_y, boxah.aspect_ratio, boxah.height, 0, 0, 0, 0]
  let std_val : Fin 8 → ℝ :=
    ![2 * wp * h, 2 * wp * h, 1e-1, 2 * wp * h,
      2 * wv * h, 2 * wv * h, 5e-1, 10 * wv * h]
  (mean, Matrix.diagonal fun i => (std_val i) ^ 2)

end DS

/-! ## Track lifecycle and the tracker coordinator -/

namespace DS

/-- The lifecycle states (`State` in `deepsort.hpp`, per the spec). -/
inductive TrackState where
  | Tentative | Confirmed | Deleted
deriving DecidableEq

/-- `TrackObjectImpl`: per-track state.  The C counters are `int`s, embedded
as `ℤ`. -/
structure TrackObj where
  time_since_update : ℤ
  state : TrackState
  age : ℤ
  hits : ℤ
  id : ℤ
  trace : List Box
  last_position : Box
  mean : Fin 8 → ℝ
  cov : Matrix (Fin 8) (Fin 8) ℝ

/-- `TrackObjectImpl::predict`: Kalman predict, then `++age`,
`++time_since_update`. -/
noncomputable def track_predict (t : TrackObj) : TrackObj :=
  let mc := kf_predict t.mean t.cov
  { t with mean := mc.1, cov := mc.2,
           age := t.age + 1, time_since_update := t.time_since_update + 1 }

/-- `TrackObjectImpl::mark_missed`. -/
def mark_missed (t : TrackObj) : TrackObj :=
  if t.state = TrackState.Tentative ∨ 30 < t.time_since_update then
    { t with state := TrackState.Deleted }
  else t

/-- `TrackObjectImpl::update`: push the box on the trace (popping the front
beyond 80), Kalman update, reset counters, and promote a Tentative track with
`hits >= 3`. -/
noncomputable def track_update (t : TrackObj) (box : Box) : TrackObj :=
  let trace1 := t.trace ++ [box]
  let trace2 := if 80 < trace1.length then trace1.tail else trace1
  let mc := kf_update (toXYAH box) t.mean t.cov
  let hits1 := t.hits + 1
  let st := if t.state = TrackState.Tentative ∧ 3 ≤ hits1 then TrackState.Confirmed
            else t.state
  { t with trace := trace2, mean := mc.1, cov := mc.2, last_position := box,
           hits := hits1, time_since_update := 0, state := st }

/-- The `TrackObjectImpl` constructor as invoked by `TrackerImpl::new_object`:
a fresh Tentative track whose Kalman state is `initiate` of the box. -/
noncomputable def newTrackObj (box : Box) (id_next : ℤ) : TrackObj :=
  let mc := initiate (toXYAH box)
  { time_since_update := 0, state := TrackState.Tentative, age := 1, hits := 1,
    id := id_next, trace := [box], last_position := box,
    mean := mc.1, cov := mc.2 }

/-- Out-of-range access placeholder (C vector indexing out of range is
undefined; the tracker only ever indexes in range, which is proved below). -/
def junkBox : Box := ⟨0, 0, 0, 0⟩

/-- Out-of-range access placeholder for the track table. -/
noncomputable def junkTrack : TrackObj := newTrackObj junkBox 0

/-- `TrackerImpl`: the live track table and the id counter (initially 1). -/
structure Tracker where
  objects : List TrackObj
  id_next : ℤ

/-- `std::set<int>` built from a vector: sorted and duplicate-free. -/
def mkSet (l : List ℕ) : List ℕ := (l.mergeSort (· ≤ ·)).dedup

/-- `std::set_symmetric_difference` on sorted duplicate-free ranges. -/
def symmDiff : List ℕ → List ℕ → List ℕ
  | [], B => B
  | a :: A, [] => a :: A
  | a :: A, b :: B =>
    if a < b then a :: symmDiff A (b :: B)
    else if b < a then b :: symmDiff (a :: A) B
    else symmDiff A B
termination_by A B => A.length + B.length

/-- The cost matrix built inside `TrackerImpl::match`: `1e5` for pairs gated
out by the chi-square test, the centre distance otherwise. -/
noncomputable def costMatrix (objects : List TrackObj) (objects_index boxes_index : List ℕ)
    (boxes : List Box) : List (List ℝ) :=
  objects_index.map fun oi =>
    boxes_index.map fun bi =>
      let t := objects.getD oi junkTrack
      let box := boxes.getD bi junkBox
      if chi2inv95_4 < ma_distance t.mean t.cov (toXYAH box) false then 100000
      else distance t.last_position box

/-- The acceptance loop at the end of `TrackerImpl::match`: a row `i` with
`assignment[i] >= 0` contributes the pair
`(boxes_index[assignment[i]], objects_index[i])` exactly when its cell cost is
strictly below 200. -/
noncomputable def acceptPairs (cost : List (List ℝ)) (asg : List ℤ)
    (objects_index boxes_index : List ℕ) : List ℕ × List ℕ :=
  (List.range asg.length).foldl (fun acc i =>
    let c := asg.getD i (-1)
    if c < 0 then acc
    else if (cost.getD i []).getD c.toNat 0 < 200 then
      (acc.1 ++ [boxes_index.getD c.toNat 0], acc.2 ++ [objects_index.getD i 0])
    else acc) ([], [])

/-- `TrackerImpl::match`: build the cost matrix, run the Hungarian solver, and
accept cheap assigned pairs.  `HungarianAlgorithm::Solve` reads
`DistMatrix[0]` unconditionally; on an empty matrix this out-of-bounds access
is modelled by `none`.  A run exceeding the fuel is conservatively modelled by
the solver's initial all-`-1` assignment (the C solver always runs to
completion; every theorem below holds for every fuel). -/
noncomputable def tracker_match (fuel : ℕ) (objects : List TrackObj)
    (objects_index boxes_index : List ℕ) (boxes : List Box) :
    Option (List ℕ × List ℕ) :=
  let cost := costMatrix objects objects_index boxes_index boxes
  if cost.isEmpty then none
  else
    let sol := (Munkres.assignmentoptimal fuel cost.length (cost.headI).length
        Munkres.dblEpsilon Munkres.dblMax
        (fun r c => (cost.getD r []).getD c 0)).getD
        (List.replicate cost.length (-1), 0)
    some (acceptPairs cost sol.1 objects_index boxes_index)

/-- The mutable state of the matching cascade inside `TrackerImpl::update`:
the (already predicted) track table and the two unmatched index sets. -/
structure CascadeSt where
  objects : List TrackObj
  unmatched_boxes : List ℕ
  unmatched_objects : List ℕ

/-- One `(state, level)` iteration of the cascade: skip when either unmatched
set is empty (the `break`) or no candidate track exists (the `continue`);
otherwise match, update the matched tracks, and remove matched indices by
symmetric difference. -/
noncomputable def cascadeStep (fuel : ℕ) (boxes : List Box) (s : CascadeSt)
    (sl : TrackState × ℕ) : Option CascadeSt :=
  if s.unmatched_boxes.isEmpty || s.unmatched_objects.isEmpty then some s
  else
    let objects_index := s.unmatched_objects.filter fun i =>
      decide ((s.objects.getD i junkTrack).time_since_update = (sl.2 : ℤ) + 1) &&
      decide ((s.objects.getD i junkTrack).state = sl.1)
    if objects_index.isEmpty then some s
    else
      (tracker_match fuel s.objects objects_index s.unmatched_boxes boxes).map fun mbo =>
        let unB := symmDiff (mkSet mbo.1) (mkSet s.unmatched_boxes)
        let unO := symmDiff (mkSet s.unmatched_objects) (mkSet mbo.2)
        let objs := (List.zip mbo.2 mbo.1).foldl (fun os p =>
          os.set p.1 (track_update (os.getD p.1 junkTrack) (boxes.getD p.2 junkBox))) s.objects
        ⟨objs, unB, unO⟩

/-- The cascade order: `state` in `[Confirmed, Tentative]`, `level` in
`0..29` within each state. -/
def cascadePairs : List (TrackState × ℕ) :=
  ([TrackState.Confirmed, TrackState.Tentative].map fun s =>
    (List.range 30).map fun l => (s, l)).flatten

/-- `TrackerImpl::update`: predict every track, run the cascade, mark the
still-unmatched tracks missed, create a new track per unmatched detection
(incrementing `id_next_`), and drop Deleted tracks. -/
noncomputable def tracker_update (fuel : ℕ) (T : Tracker) (boxes : List Box) :
    Option Tracker :=
  let objs0 := T.objects.map track_predict
  let init : CascadeSt := ⟨objs0, List.range boxes.length, List.range objs0.length⟩
  (cascadePairs.foldlM (cascadeStep fuel boxes) init).map fun s =>
    let objs1 := s.unmatched_objects.foldl
      (fun os i => os.set i (mark_missed (os.getD i junkTrack))) s.objects
    let ons := s.unmatched_boxes.foldl
      (fun p i => (p.1 ++ [newTrackObj (boxes.getD i junkBox) p.2], p.2 + 1))
      (objs1, T.id_next)
    ⟨ons.1.filter fun t => decide (t.state ≠ TrackState.Deleted), ons.2⟩

end DS

/-! ## Derived definitions used by the claim statements -/

namespace Munkres

/-- A star matrix with at most one star per column (the key validity property
of the solver's assignment). -/
def ColOk (star : ℕ → ℕ → Bool) : Prop :=
  ∀ c r r', star r c = true → star r' c = true → r = r'

/-- A star matrix whose stars all lie in rows `< nR`. -/
def RowOk (nR : ℕ) (star : ℕ → ℕ → Bool) : Prop :=
  ∀ r c, star r c = true → r < nR

/-- The sum of the original matrix cells selected by an assignment vector:
row `r` contributes its `assignment[r]`-th cell when `assignment[r] ≥ 0`. -/
def selectedSum {α : Type} [LinearOrderedField α] (mat : List (List α)) (asg : List ℤ) : α :=
  ((List.range mat.length).map fun r =>
    let c := asg.getD r (-1)
    if 0 ≤ c then (mat.getD r []).getD c.toNat 0 else 0).sum

/-- First starred row of a column (`find starred zero in current column`). -/
def fsr (nR : ℕ) (star : ℕ → ℕ → Bool) (c : ℕ) : Option ℕ :=
  firstIdx nR fun r => star r c

/-- First primed column of a row, defaulting to `nC` as the C scan does
(`find primed zero in current row`). -/
def fpc (nC : ℕ) (prime : ℕ → ℕ → Bool) (r : ℕ) : ℕ :=
  (firstIdx nC fun c => prime r c).getD nC

/-- The column reached from `c` by one step of the step-4 alternating path:
the first primed column of the first starred row of `c` (or `c` itself at a
star-free column, where the loop stops). -/
def nextCol (nR nC : ℕ) (star prime : ℕ → ℕ → Bool) (c : ℕ) : ℕ :=
  match fsr nR star c with
  | some r => fpc nC prime r
  | none => c

/-- The column of the step-4 alternating path after `k` steps. -/
def pathCol (nR nC : ℕ) (star prime : ℕ → ℕ → Bool) (c0 k : ℕ) : ℕ :=
  (nextCol nR nC star prime)^[k] c0

/-- The new-star matrix after `k` flips of the step-4 alternating path. -/
def pathNs (nR nC : ℕ) (star prime : ℕ → ℕ → Bool) (ns0 : ℕ → ℕ → Bool) (c0 : ℕ) :
    ℕ → (ℕ → ℕ → Bool)
  | 0 => ns0
  | k + 1 =>
    let c := pathCol nR nC star prime c0 k
    match fsr nR star c with
    | some sr => upd2 (upd2 (pathNs nR nC star prime ns0 c0 k) sr c false)
        sr (fpc nC prime sr) true
    | none => pathNs nR nC star prime ns0 c0 k

end Munkres

namespace DS

/-- The tracks created by the birth loop at the end of `TrackerImpl::update`,
one per unmatched detection index, with consecutive ids from `n`. -/
noncomputable def birthList (boxes : List Box) : ℤ → List ℕ → List TrackObj
  | _, [] => []
  | n, i :: L => newTrackObj (boxes.getD i junkBox) n :: birthList boxes (n + 1) L

/-- `m` successive `update` calls with an empty detection list. -/
noncomputable def iterEmptyUpdates (fuel : ℕ) : ℕ → Tracker → Option Tracker
  | 0, T => some T
  | m + 1, T => (iterEmptyUpdates fuel m T).bind fun T2 => tracker_update fuel T2 []

/-- No live track is Deleted. -/
def NoDeleted (T : Tracker) : Prop :=
  ∀ t ∈ T.objects, t.state ≠ TrackState.Deleted

/-- Track ids are strictly increasing in creation order and below the
`id_next_` counter. -/
def IdInv (T : Tracker) : Prop :=
  (T.objects.map TrackObj.id).Pairwise (· < ·) ∧ ∀ t ∈ T.objects, t.id < T.id_next

/-- The counter invariants of every live track. -/
def CounterInv (T : Tracker) : Prop :=
  ∀ t ∈ T.objects, 0 ≤ t.time_since_update ∧ 1 ≤ t.hits ∧ t.hits ≤ t.age ∧
    t.trace.length ≤ 80

/-- The concrete 8-state mean of the `ma_distance` counterexample. -/
noncomputable def meanBug : Fin 8 → ℝ := ![0, 0, 0, 20, 0, 0, 0, 0]

/-- The concrete 8×8 covariance of the `ma_distance` counterexample: a single
symmetric off-diagonal pair that makes the projected covariance have a
non-normal Cholesky factor. -/
noncomputable def covBug : Matrix (Fin 8) (Fin 8) ℝ :=
  !![0, 1, 0, 0, 0, 0, 0, 0;
     1, 1, 0, 0, 0, 0, 0, 0;
     0, 0, 3 / 4, 0, 0, 0, 0, 0;
     0, 0, 0, 0, 0, 0, 0, 0;
     0, 0, 0, 0, 0, 0, 0, 0;
     0, 0, 0, 0, 0, 0, 0, 0;
     0, 0, 0, 0, 0, 0, 0, 0;
     0, 0, 0, 0, 0, 0, 0, 0]

/-- The concrete measurement of the `ma_distance` counterexample. -/
def measBug : BBoxXYAH := ⟨1, 0, 0, 20⟩

/-- The innovation `d = m − pmean` at the counterexample input. -/
noncomputable def dBug : Fin 4 → ℝ :=
  fun i => measVec measBug i - (project meanBug covBug).1 i

/-- A concrete Confirmed track whose every pairing with `gateBox` is gated. -/
noncomputable def gateTrack : TrackObj :=
  { time_since_update := 0, state := TrackState.Confirmed, age := 1, hits := 3,
    id := 1, trace := [junkBox], last_position := junkBox,
    mean := ![0, 0, 0, 20, 0, 0, 0, 0], cov := 0 }

/-- A detection far away from `gateTrack`. -/
def gateBox : Box := ⟨9990, 0, 10010, 20⟩

/-- A tracker holding exactly `gateTrack`. -/
noncomputable def gateTracker : Tracker := ⟨[gateTrack], 5⟩

/-- A concrete Confirmed track for the 30-empty-frames scenario. -/
noncomputable def gapTrack : TrackObj :=
  { time_since_update := 0, state := TrackState.Confirmed, age := 3, hits := 3,
    id := 1, trace := [junkBox], last_position := junkBox,
    mean := ![0, 0, 0, 20, 0, 0, 0, 0], cov := 0 }

end DS

/-! ## Theorems -/

namespace DS

/-- Claim C9: projecting the state produced by `initiate(m)` yields a
projected mean exactly equal to `(cx, cy, a, h)`: the measurement matrix is an
exact selector of the first four state components. -/
theorem project_initiate_exact (m : BBoxXYAH) :
    (project (initiate m).1 (initiate m).2).1 = measVec m := by
  funext i
  fin_cases i <;>
  · simp [project, initiate, update_mat, Matrix.mulVec, Matrix.dotProduct,
      Fin.sum_univ_eight, measVec, Matrix.of_apply, Matrix.vecHead,
      Matrix.vecTail, Function.comp]
    try norm_num [show ((3 : Fin 4) : ℕ) = 3 from rfl]

theorem projBug_fst : (project meanBug covBug).1 = ![0, 0, 0, 20] := by
  funext i
  fin_cases i <;>
  · simp [project, meanBug, covBug, update_mat, Matrix.mulVec, Matrix.dotProduct,
      Fin.sum_univ_eight, Matrix.of_apply, Matrix.vecHead, Matrix.vecTail,
      Function.comp]
    try norm_num [show ((3 : Fin 4) : ℕ) = 3 from rfl]

theorem projBug_snd : (project meanBug covBug).2 =
    !![1, 1, 0, 0; 1, 2, 0, 0; 0, 0, 1, 0; 0, 0, 0, 1] := by
  ext i j
  fin_cases i <;> fin_cases j <;>
  · simp +decide [project, meanBug, covBug, update_mat, Matrix.mul_apply,
      Fin.sum_univ_succ, Matrix.of_apply, Matrix.transpose_apply,
      Matrix.diagonal, Matrix.cons_val_zero, Matrix.cons_val_succ,
      Matrix.vecHead, Matrix.vecTail, Function.comp,
      Fin.val_succ, Fin.val_zero, std_weight_position]
    try norm_num

theorem cholBug : cholesky4 (!![1, 1, 0, 0; 1, 2, 0, 0; 0, 0, 1, 0; 0, 0, 0, 1]) =
    !![1, 0, 0, 0; 1, 1, 0, 0; 0, 0, 1, 0; 0, 0, 0, 1] := by
  unfold cholesky4
  norm_num [Real.sqrt_one, Matrix.vecHead, Matrix.vecTail]

theorem cholBugInv :
    (!![1, 0, 0, 0; 1, 1, 0, 0; 0, 0, 1, 0; 0, 0, 0, 1] : Matrix (Fin 4) (Fin 4) ℝ)⁻¹ =
    !![1, 0, 0, 0; -1, 1, 0, 0; 0, 0, 1, 0; 0, 0, 0, 1] := by
  apply Matrix.inv_eq_right_inv
  ext i j
  fin_cases i <;> fin_cases j <;>
    simp [Matrix.mul_apply, Fin.sum_univ_succ, Matrix.cons_val_zero,
      Matrix.cons_val_succ, Matrix.vecHead, Matrix.vecTail, Function.comp,
      Matrix.one_apply]

theorem pcovBugInv :
    (!![1, 1, 0, 0; 1, 2, 0, 0; 0, 0, 1, 0; 0, 0, 0, 1] : Matrix (Fin 4) (Fin 4) ℝ)⁻¹ =
    !![2, -1, 0, 0; -1, 1, 0, 0; 0, 0, 1, 0; 0, 0, 0, 1] := by
  apply Matrix.inv_eq_right_inv
  ext i j
  fin_cases i <;> fin_cases j <;>
  · simp [Matrix.mul_apply, Fin.sum_univ_succ, Matrix.cons_val_zero,
      Matrix.cons_val_succ, Matrix.vecHead, Matrix.vecTail, Function.comp,
      Matrix.one_apply]
    try norm_num

theorem dBug_eq : dBug = ![1, 0, 0, 0] := by
  funext i
  rw [dBug, projBug_fst]
  fin_cases i <;> simp [measVec, measBug]

/-- Claim C2: at the concrete state `(meanBug, covBug)` (whose projected
covariance `!![1,1,0,0; 1,2,0,0; 0,0,1,0; 0,0,0,1]` is positive definite) and
measurement `measBug`, the source's `ma_distance` returns `1`, while the
claimed value `dᵀ · pcov⁻¹ · d` is `2`: the implementation computes
`dᵀ·L⁻¹·L⁻ᵀ·d = dᵀ·(LᵀL)⁻¹·d` instead of `dᵀ·L⁻ᵀ·L⁻¹·d = dᵀ·(LLᵀ)⁻¹·d`.
Every arithmetic operation of the source on this input is exact in float
arithmetic, so the real-valued embedding agrees with the machine. -/
theorem ma_distance_bug_eval :
    ma_distance meanBug covBug measBug false = 1 ∧
    Matrix.dotProduct dBug ((project meanBug covBug).2⁻¹.mulVec dBug) = 2 ∧
    (1 : ℝ) ≠ 2 := by
  refine ⟨?_, ?_, by norm_num⟩
  · have h0 : ma_distance meanBug covBug measBug false =
        ∑ j : Fin 4, (∑ i : Fin 4,
          dBug i * ((cholesky4 (project meanBug covBug).2)⁻¹) i j) ^ 2 := rfl
    rw [h0, projBug_snd, cholBug, cholBugInv, dBug_eq]
    simp [Fin.sum_univ_four, Matrix.cons_val_zero, Matrix.cons_val_one,
      Matrix.vecHead, Matrix.vecTail]
  · rw [projBug_snd, pcovBugInv, dBug_eq]
    simp [Matrix.dotProduct, Matrix.mulVec, Fin.sum_univ_four,
      Matrix.cons_val_zero, Matrix.cons_val_one, Matrix.vecHead, Matrix.vecTail]

end DS

set_option maxRecDepth 100000 in
unseal Rat.sub Rat.add Rat.mul Rat.inv in
/-- Claim C1: on the nonnegative 1×2 double matrix `[[2⁻⁵³, 0]]` (all of whose
values and intermediate computations are exact IEEE doubles), `Solve` returns
the assignment `[0]` with total cost `2⁻⁵³ > 0`, although the feasible
assignment `[1]` has total cost `0`: the `fabs(...) < DBL_EPSILON` zero test
stars the positive cell, so the result does not minimise the total cost. -/
theorem solve_suboptimal_eval :
    Munkres.Solve 100 [[((1 : ℚ) / 2) ^ 53, 0]] = some ([0], ((1 : ℚ) / 2) ^ 53) ∧
    (0 : ℚ) ≤ ((1 : ℚ) / 2) ^ 53 ∧
    Munkres.selectedSum [[((1 : ℚ) / 2) ^ 53, 0]] [1] = 0 ∧
    (0 : ℚ) < ((1 : ℚ) / 2) ^ 53 := by
  refine ⟨by decide, by positivity, by decide, by positivity⟩

namespace DS

theorem cascadeStep_exists (f : ℕ) (boxes : List Box) (s : CascadeSt) (sl : TrackState × ℕ) :
    ∃ s2, cascadeStep f boxes s sl = some s2 := by
  unfold cascadeStep
  split
  · exact ⟨s, rfl⟩
  · dsimp only
    split
    · exact ⟨s, rfl⟩
    · rename_i h1 h2
      unfold tracker_match
      rw [if_neg]
      · exact ⟨_, rfl⟩
      · simpa [costMatrix, List.isEmpty_iff] using h2

theorem foldlM_cascade_isSome (f : ℕ) (boxes : List Box) :
    ∀ (L : List (TrackState × ℕ)) (s : CascadeSt),
      (L.foldlM (cascadeStep f boxes) s).isSome = true := by
  intro L
  induction L with
  | nil => intro s; rfl
  | cons hd tl ih =>
    intro s
    obtain ⟨s2, hs2⟩ := cascadeStep_exists f boxes s hd
    simp [List.foldlM, hs2, ih s2]

/-- Claim C10: `TrackerImpl::update` invokes `match` (and thereby the
Hungarian solver) only when both the unmatched-detection set and the
candidate-track set are non-empty, so the cost matrix is never empty and
`Solve`'s unconditional read of `DistMatrix[0]` is in bounds: the
out-of-bounds branch of the embedding (`none`) is unreachable for every
tracker state, detection list and fuel. -/
theorem tracker_update_isSome (f : ℕ) (T : Tracker) (boxes : List Box) :
    (tracker_update f T boxes).isSome = true := by
  unfold tracker_update
  simp [Option.isSome_map, foldlM_cascade_isSome]

end DS

namespace DS

theorem foldl_set_length (f : TrackObj → TrackObj) (L : List ℕ) :
    ∀ os : List TrackObj,
      (L.foldl (fun os2 i => os2.set i (f (os2.getD i junkTrack))) os).length = os.length := by
  induction L with
  | nil => intro os; rfl
  | cons i L ih =>
    intro os
    rw [List.foldl_cons, ih, List.length_set]

theorem foldl_set_getD (f : TrackObj → TrackObj) (L : List ℕ) :
    ∀ os : List TrackObj, L.Nodup → ∀ k, k < os.length →
      (L.foldl (fun os2 i => os2.set i (f (os2.getD i junkTrack))) os).getD k junkTrack =
        if k ∈ L then f (os.getD k junkTrack) else os.getD k junkTrack := by
  induction L with
  | nil => intro os _ k hk; simp
  | cons i L ih =>
    intro os hnd k hk
    have hni : i ∉ L := (List.nodup_cons.mp hnd).1
    rw [List.foldl_cons, ih _ hnd.of_cons k (by simpa using hk)]
    by_cases hkL : k ∈ L
    · have hki : i ≠ k := fun h => hni (h ▸ hkL)
      simp only [List.getD_eq_getElem?_getD, List.getElem?_set, hki, if_false, hkL, if_true,
        List.mem_cons, or_true]
    · by_cases hki : i = k
      · subst hki
        simp only [List.getD_eq_getElem?_getD, List.getElem?_set, if_pos rfl, hk, if_true,
          hkL, if_false, List.mem_cons, true_or, Option.getD_some]
      · simp only [List.getD_eq_getElem?_getD, List.getElem?_set, hki, if_false, hkL,
          List.mem_cons, or_false]
        have : k ≠ i := fun h => hki h.symm
        simp [this]

theorem foldl_set_range_map (f : TrackObj → TrackObj) (os : List TrackObj) :
    (List.range os.length).foldl (fun os2 i => os2.set i (f (os2.getD i junkTrack))) os =
      os.map f := by
  apply List.ext_getElem
  · rw [foldl_set_length, List.length_map]
  · intro n h1 h2
    have hn : n < os.length := by rwa [foldl_set_length] at h1
    have := foldl_set_getD f (List.range os.length) os (List.nodup_range _) n hn
    rw [if_pos (List.mem_range.mpr hn)] at this
    rw [← List.getD_eq_getElem _ junkTrack, this, List.getElem_map,
      ← List.getD_eq_getElem _ junkTrack]

end DS

namespace DS

theorem cascadeStep_skip_boxes (f : ℕ) (boxes : List Box) (s : CascadeSt)
    (h : s.unmatched_boxes = []) (sl : TrackState × ℕ) :
    cascadeStep f boxes s sl = some s := by
  unfold cascadeStep
  rw [if_pos]
  simp [h]

theorem cascadeStep_skip_objects (f : ℕ) (boxes : List Box) (s : CascadeSt)
    (h : s.unmatched_objects = []) (sl : TrackState × ℕ) :
    cascadeStep f boxes s sl = some s := by
  unfold cascadeStep
  rw [if_pos]
  simp [h]

theorem foldlM_cascade_skip_boxes (f : ℕ) (boxes : List Box) :
    ∀ (L : List (TrackState × ℕ)) (s : CascadeSt), s.unmatched_boxes = [] →
      L.foldlM (cascadeStep f boxes) s = some s := by
  intro L
  induction L with
  | nil => intro s _; rfl
  | cons hd tl ih =>
    intro s h
    simp only [List.foldlM]
    rw [cascadeStep_skip_boxes f boxes s h hd]
    exact ih s h

theorem foldlM_cascade_skip_objects (f : ℕ) (boxes : List Box) :
    ∀ (L : List (TrackState × ℕ)) (s : CascadeSt), s.unmatched_objects = [] →
      L.foldlM (cascadeStep f boxes) s = some s := by
  intro L
  induction L with
  | nil => intro s _; rfl
  | cons hd tl ih =>
    intro s h
    simp only [List.foldlM]
    rw [cascadeStep_skip_objects f boxes s h hd]
    exact ih s h

theorem foldl_births (boxes : List Box) :
    ∀ (L : List ℕ) (os : List TrackObj) (n : ℤ),
      L.foldl (fun p i => (p.1 ++ [newTrackObj (boxes.getD i junkBox) p.2], p.2 + 1)) (os, n) =
        (os ++ birthList boxes n L, n + L.length) := by
  intro L
  induction L with
  | nil => intro os n; simp [birthList]
  | cons i L ih =>
    intro os n
    rw [List.foldl_cons, ih]
    simp only [birthList, List.append_assoc, List.singleton_append, List.length_cons,
      Prod.mk.injEq, true_and]
    push_cast
    ring

/-- Closed form of `update` on an empty detection list. -/
theorem tracker_update_nil (f : ℕ) (T : Tracker) :
    tracker_update f T [] = some ⟨((T.objects.map track_predict).map mark_missed).filter
      (fun t => decide (t.state ≠ TrackState.Deleted)), T.id_next⟩ := by
  unfold tracker_update
  dsimp only
  rw [foldlM_cascade_skip_boxes f [] cascadePairs _ rfl]
  simp only [Option.map_some']
  rw [show List.range ([] : List Box).length = [] from rfl,
    foldl_set_range_map mark_missed (T.objects.map track_predict)]
  rfl

theorem birthList_forall (boxes : List Box) :
    ∀ (L : List ℕ) (n : ℤ) (t : TrackObj), t ∈ birthList boxes n L →
      t.state = TrackState.Tentative ∧ t.hits = 1 ∧ t.age = 1 ∧
      t.time_since_update = 0 ∧ t.trace.length = 1 ∧ n ≤ t.id ∧ t.id < n + L.length := by
  intro L
  induction L with
  | nil => intro n t ht; simp [birthList] at ht
  | cons i L ih =>
    intro n t ht
    simp only [birthList, List.mem_cons] at ht
    rcases ht with h | h
    · subst h
      refine ⟨rfl, rfl, rfl, rfl, rfl, le_refl _, ?_⟩
      have hid : (newTrackObj (boxes.getD i junkBox) n).id = n := rfl
      rw [hid, List.length_cons]
      push_cast
      omega
    · obtain ⟨h1, h2, h3, h4, h5, h6, h7⟩ := ih (n + 1) t h
      refine ⟨h1, h2, h3, h4, h5, by omega, ?_⟩
      rw [List.length_cons]
      push_cast at h7 ⊢
      omega

/-- Closed form of `update` on an empty track table. -/
theorem tracker_update_empty_table (f : ℕ) (n : ℤ) (boxes : List Box) :
    tracker_update f ⟨[], n⟩ boxes =
      some ⟨birthList boxes n (List.range boxes.length), n + boxes.length⟩ := by
  unfold tracker_update
  dsimp only
  rw [foldlM_cascade_skip_objects f boxes cascadePairs _ rfl]
  simp only [Option.map_some']
  rw [show List.range (List.map track_predict ([] : List TrackObj)).length = []
      from rfl]
  simp only [List.map_nil, List.foldl_nil]
  rw [foldl_births boxes (List.range boxes.length) [] n]
  simp only [List.nil_append, List.length_range]
  congr 2
  apply List.filter_eq_self.mpr
  intro t ht
  have := (birthList_forall boxes (List.range boxes.length) n t ht).1
  simp [this]

end DS

namespace DS

theorem birthList_length (boxes : List Box) :
    ∀ (L : List ℕ) (n : ℤ), (birthList boxes n L).length = L.length := by
  intro L
  induction L with
  | nil => intro n; rfl
  | cons i L ih => intro n; simp [birthList, ih]

/-- Claim C8: `update` with an empty detection list produces no matches,
marks every live track missed (after the predict step incremented its miss
streak) and creates no new tracks (`id_next` is unchanged); `update` on an
empty track table creates exactly one new Tentative track per detection. -/
theorem update_empty_cases (f : ℕ) (T : Tracker) (n : ℤ) (B : List Box) :
    tracker_update f T [] = some ⟨((T.objects.map track_predict).map mark_missed).filter
        (fun t => decide (t.state ≠ TrackState.Deleted)), T.id_next⟩ ∧
    tracker_update f ⟨[], n⟩ B =
      some ⟨birthList B n (List.range B.length), n + B.length⟩ ∧
    (∀ t ∈ birthList B n (List.range B.length), t.state = TrackState.Tentative) ∧
    (birthList B n (List.range B.length)).length = B.length := by
  refine ⟨tracker_update_nil f T, tracker_update_empty_table f n B, ?_, ?_⟩
  · intro t ht
    exact (birthList_forall B (List.range B.length) n t ht).1
  · rw [birthList_length, List.length_range]

theorem track_predict_state (u : TrackObj) : (track_predict u).state = u.state := rfl

theorem track_predict_tsu (u : TrackObj) :
    (track_predict u).time_since_update = u.time_since_update + 1 := rfl

theorem track_predict_iter_state (u : TrackObj) :
    ∀ m, (track_predict^[m] u).state = u.state := by
  intro m
  induction m with
  | zero => rfl
  | succ m ih => rw [Function.iterate_succ_apply', track_predict_state, ih]

theorem track_predict_iter_tsu (u : TrackObj) :
    ∀ m, (track_predict^[m] u).time_since_update = u.time_since_update + m := by
  intro m
  induction m with
  | zero => simp
  | succ m ih =>
    rw [Function.iterate_succ_apply', track_predict_tsu, ih]
    push_cast
    ring

theorem iterEmpty_single (f : ℕ) (u : TrackObj) (n : ℤ)
    (hu1 : u.state = TrackState.Confirmed) (hu2 : u.time_since_update = 0) :
    ∀ m, m ≤ 30 → iterEmptyUpdates f m ⟨[u], n⟩ = some ⟨[track_predict^[m] u], n⟩ := by
  intro m
  induction m with
  | zero => intro _; rfl
  | succ m ih =>
    intro hm
    have hm' : m ≤ 30 := by omega
    unfold iterEmptyUpdates
    rw [ih hm', Option.some_bind, tracker_update_nil]
    have hst : (track_predict (track_predict^[m] u)).state = TrackState.Confirmed := by
      rw [track_predict_state, track_predict_iter_state, hu1]
    have hts : (track_predict (track_predict^[m] u)).time_since_update = m + 1 := by
      rw [track_predict_tsu, track_predict_iter_tsu, hu2]
      ring
    have hmm2 : mark_missed (track_predict (track_predict^[m] u)) =
        track_predict (track_predict^[m] u) := by
      unfold mark_missed
      rw [if_neg]
      rw [hst, hts]
      push_neg
      constructor
      · intro h
        exact absurd h (by simp)
      · omega
    simp only [List.map_cons, List.map_nil, hmm2]
    rw [show track_predict (track_predict^[m] u) = track_predict^[m + 1] u from
      (Function.iterate_succ_apply' track_predict m u).symm]
    have hstate : (track_predict^[m + 1] u).state = TrackState.Confirmed := by
      rw [track_predict_iter_state, hu1]
    rw [Function.iterate_succ_apply] at hstate
    simp [List.filter_cons, hstate]

end DS

namespace DS

/-- Claim C4: `mark_missed` sets a track's state to Deleted exactly when the
track is Tentative or its `time_since_update` exceeds 30 and leaves the track
unchanged otherwise; a Confirmed track fed 30 consecutive empty-detection
frames remains Confirmed with `time_since_update = 30`, and on the 31st empty
frame it becomes Deleted and is reaped from the table. -/
theorem mark_missed_char_and_gap (t u : TrackObj) (n : ℤ) (f : ℕ)
    (hu1 : u.state = TrackState.Confirmed) (hu2 : u.time_since_update = 0) :
    (mark_missed t = if t.state = TrackState.Tentative ∨ 30 < t.time_since_update
        then { t with state := TrackState.Deleted } else t) ∧
    iterEmptyUpdates f 30 ⟨[u], n⟩ = some ⟨[track_predict^[30] u], n⟩ ∧
    (track_predict^[30] u).state = TrackState.Confirmed ∧
    (track_predict^[30] u).time_since_update = 30 ∧
    tracker_update f ⟨[track_predict^[30] u], n⟩ [] = some ⟨[], n⟩ := by
  refine ⟨rfl, iterEmpty_single f u n hu1 hu2 30 le_rfl, ?_, ?_, ?_⟩
  · rw [track_predict_iter_state, hu1]
  · rw [track_predict_iter_tsu, hu2]
    ring
  · rw [tracker_update_nil]
    have h31s : (track_predict (track_predict^[30] u)).state = TrackState.Confirmed := by
      rw [track_predict_state, track_predict_iter_state, hu1]
    have h31t : (track_predict (track_predict^[30] u)).time_since_update = 31 := by
      rw [track_predict_tsu, track_predict_iter_tsu, hu2]
      ring
    have hdel : mark_missed (track_predict (track_predict^[30] u)) =
        { track_predict (track_predict^[30] u) with state := TrackState.Deleted } := by
      unfold mark_missed
      rw [if_pos]
      rw [h31t]
      right
      omega
    simp only [List.map_cons, List.map_nil]
    rw [hdel]
    rfl

end DS

namespace DS

theorem mark_missed_char_and_gap_witness :
    (mark_missed gapTrack =
      if gapTrack.state = TrackState.Tentative ∨ 30 < gapTrack.time_since_update
      then { gapTrack with state := TrackState.Deleted } else gapTrack) ∧
    iterEmptyUpdates 5 30 ⟨[gapTrack], 1⟩ = some ⟨[track_predict^[30] gapTrack], 1⟩ ∧
    (track_predict^[30] gapTrack).state = TrackState.Confirmed ∧
    (track_predict^[30] gapTrack).time_since_update = 30 ∧
    tracker_update 5 ⟨[track_predict^[30] gapTrack], 1⟩ [] = some ⟨[], 1⟩ :=
  mark_missed_char_and_gap gapTrack gapTrack 1 5 rfl rfl

end DS

namespace DS

theorem symmDiff_nil_left (B : List ℕ) : symmDiff [] B = B := by
  rw [symmDiff]

theorem symmDiff_nil_right (A : List ℕ) : symmDiff A [] = A := by
  cases A with
  | nil => rw [symmDiff]
  | cons a A => rw [symmDiff]

theorem mem_symmDiff_weak (x : ℕ) :
    ∀ (A B : List ℕ), x ∈ symmDiff A B → x ∈ A ∨ x ∈ B := by
  intro A B
  induction A, B using symmDiff.induct with
  | case1 B => rw [symmDiff_nil_left]; intro h; exact Or.inr h
  | case2 a A => rw [symmDiff_nil_right]; intro h; exact Or.inl h
  | case3 a A b B hab ih =>
    rw [symmDiff, if_pos hab]
    intro h
    rcases List.mem_cons.mp h with h | h
    · exact Or.inl (h ▸ List.mem_cons_self a A)
    · rcases ih h with h | h
      · exact Or.inl (List.mem_cons_of_mem a h)
      · exact Or.inr h
  | case4 a A b B hab hba ih =>
    rw [symmDiff, if_neg hab, if_pos hba]
    intro h
    rcases List.mem_cons.mp h with h | h
    · exact Or.inr (h ▸ List.mem_cons_self b B)
    · rcases ih h with h | h
      · exact Or.inl h
      · exact Or.inr (List.mem_cons_of_mem b h)
  | case5 a A b B hab hba ih =>
    rw [symmDiff, if_neg hab, if_neg hba]
    intro h
    rcases ih h with h | h
    · exact Or.inl (List.mem_cons_of_mem a h)
    · exact Or.inr (List.mem_cons_of_mem b h)

end DS

namespace DS

theorem sorted_symmDiff :
    ∀ (A B : List ℕ), A.Sorted (· < ·) → B.Sorted (· < ·) →
      (symmDiff A B).Sorted (· < ·) := by
  intro A B
  induction A, B using symmDiff.induct with
  | case1 B => rw [symmDiff_nil_left]; exact fun _ h => h
  | case2 a A => rw [symmDiff_nil_right]; exact fun h _ => h
  | case3 a A b B hab ih =>
    intro hA hB
    rw [symmDiff, if_pos hab]
    rw [List.sorted_cons]
    refine ⟨?_, ih hA.of_cons hB⟩
    intro y hy
    rcases mem_symmDiff_weak y A (b :: B) hy with h | h
    · exact List.rel_of_sorted_cons hA y h
    · rcases List.mem_cons.mp h with rfl | h
      · exact hab
      · exact lt_trans hab (List.rel_of_sorted_cons hB y h)
  | case4 a A b B hab hba ih =>
    intro hA hB
    rw [symmDiff, if_neg hab, if_pos hba]
    rw [List.sorted_cons]
    refine ⟨?_, ih hA hB.of_cons⟩
    intro y hy
    rcases mem_symmDiff_weak y (a :: A) B hy with h | h
    · rcases List.mem_cons.mp h with rfl | h
      · exact hba
      · exact lt_trans hba (List.rel_of_sorted_cons hA y h)
    · exact List.rel_of_sorted_cons hB y h
  | case5 a A b B hab hba ih =>
    intro hA hB
    rw [symmDiff, if_neg hab, if_neg hba]
    exact ih hA.of_cons hB.of_cons

theorem mem_symmDiff :
    ∀ (A B : List ℕ), A.Sorted (· < ·) → B.Sorted (· < ·) → ∀ x,
      (x ∈ symmDiff A B ↔ (x ∈ A ∧ x ∉ B) ∨ (x ∈ B ∧ x ∉ A)) := by
  intro A B
  induction A, B using symmDiff.induct with
  | case1 B => intro _ _ x; rw [symmDiff_nil_left]; simp
  | case2 a A => intro _ _ x; rw [symmDiff_nil_right]; simp
  | case3 a A b B hab ih =>
    intro hA hB x
    rw [symmDiff, if_pos hab]
    have haA : ∀ y ∈ A, a < y := List.rel_of_sorted_cons hA
    have hbB : ∀ y ∈ b :: B, b ≤ y := by
      intro y hy
      rcases List.mem_cons.mp hy with rfl | hy
      · exact le_refl _
      · exact le_of_lt (List.rel_of_sorted_cons hB y hy)
    have hanb : a ∉ b :: B := fun h => absurd (hbB a h) (by omega)
    have hanA : a ∉ A := fun h => absurd (haA a h) (by omega)
    rw [List.mem_cons, ih hA.of_cons hB x]
    constructor
    · rintro (rfl | h | h)
      · exact Or.inl ⟨List.mem_cons_self _ _, hanb⟩
      · exact Or.inl ⟨List.mem_cons_of_mem a h.1, h.2⟩
      · refine Or.inr ⟨h.1, ?_⟩
        intro hx
        rcases List.mem_cons.mp hx with rfl | hx
        · exact hanb h.1
        · exact h.2 hx
    · rintro (⟨h1, h2⟩ | ⟨h1, h2⟩)
      · rcases List.mem_cons.mp h1 with rfl | h1
        · exact Or.inl rfl
        · exact Or.inr (Or.inl ⟨h1, h2⟩)
      · exact Or.inr (Or.inr ⟨h1, fun hx => h2 (List.mem_cons_of_mem a hx)⟩)
  | case4 a A b B hab hba ih =>
    intro hA hB x
    rw [symmDiff, if_neg hab, if_pos hba]
    have hbB : ∀ y ∈ B, b < y := List.rel_of_sorted_cons hB
    have haA : ∀ y ∈ a :: A, a ≤ y := by
      intro y hy
      rcases List.mem_cons.mp hy with rfl | hy
      · exact le_refl _
      · exact le_of_lt (List.rel_of_sorted_cons hA y hy)
    have hbna : b ∉ a :: A := fun h => absurd (haA b h) (by omega)
    have hbnB : b ∉ B := fun h => absurd (hbB b h) (by omega)
    rw [List.mem_cons, ih hA hB.of_cons x]
    constructor
    · rintro (rfl | h | h)
      · exact Or.inr ⟨List.mem_cons_self _ _, hbna⟩
      · refine Or.inl ⟨h.1, ?_⟩
        intro hx
        rcases List.mem_cons.mp hx with rfl | hx
        · exact hbna h.1
        · exact h.2 hx
      · exact Or.inr ⟨List.mem_cons_of_mem b h.1, h.2⟩
    · rintro (⟨h1, h2⟩ | ⟨h1, h2⟩)
      · exact Or.inr (Or.inl ⟨h1, fun hx => h2 (List.mem_cons_of_mem b hx)⟩)
      · rcases List.mem_cons.mp h1 with rfl | h1
        · exact Or.inl rfl
        · exact Or.inr (Or.inr ⟨h1, h2⟩)
  | case5 a A b B hab hba ih =>
    intro hA hB x
    rw [symmDiff, if_neg hab, if_neg hba]
    have hab2 : a = b := by omega
    subst hab2
    have haA : ∀ y ∈ A, a < y := List.rel_of_sorted_cons hA
    have haB : ∀ y ∈ B, a < y := List.rel_of_sorted_cons hB
    rw [ih hA.of_cons hB.of_cons x]
    by_cases hxa : x = a
    · subst hxa
      have h1 : x ∉ A := fun h => absurd (haA x h) (by omega)
      have h2 : x ∉ B := fun h => absurd (haB x h) (by omega)
      simp [h1, h2]
    · simp [List.mem_cons, hxa]

end DS

namespace DS

theorem mem_mkSet (l : List ℕ) (x : ℕ) : x ∈ mkSet l ↔ x ∈ l := by
  unfold mkSet
  rw [List.mem_dedup, List.mem_mergeSort]

theorem sorted_mkSet (l : List ℕ) : (mkSet l).Sorted (· < ·) := by
  have h1 : (l.mergeSort (· ≤ ·)).Sorted (· ≤ ·) := List.sorted_mergeSort' l
  have h2 : (mkSet l).Sorted (· ≤ ·) := List.Pairwise.sublist (List.dedup_sublist _) h1
  have h3 : (mkSet l).Nodup := List.nodup_dedup _
  exact (h2.and h3).imp fun h => lt_of_le_of_ne h.1 h.2

theorem mkSet_nil : mkSet [] = [] := by simp [mkSet]

theorem sorted_lt_nodup {l : List ℕ} (h : l.Sorted (· < ·)) : l.Nodup :=
  h.imp fun hab => Nat.ne_of_lt hab

theorem mkSet_eq_self {l : List ℕ} (h : l.Sorted (· < ·)) : mkSet l = l := by
  unfold mkSet
  rw [List.mergeSort_eq_self (h.imp fun hab => le_of_lt hab),
    List.dedup_eq_self.mpr (sorted_lt_nodup h)]

theorem sorted_range (n : ℕ) : (List.range n).Sorted (· < ·) :=
  List.pairwise_lt_range n

end DS

namespace Munkres

variable {α : Type} [LinearOrderedField α]

theorem firstIdx_some_lt {n : ℕ} {p : ℕ → Bool} {c : ℕ} (h : firstIdx n p = some c) :
    c < n := by
  have := List.mem_of_find?_eq_some h
  exact List.mem_range.mp this

theorem firstIdx_some_prop {n : ℕ} {p : ℕ → Bool} {c : ℕ} (h : firstIdx n p = some c) :
    p c = true :=
  List.find?_some h

theorem firstIdx_none {n : ℕ} {p : ℕ → Bool} (h : firstIdx n p = none) :
    ∀ c < n, p c = false := by
  intro c hc
  simpa using List.find?_eq_none.mp h c (List.mem_range.mpr hc)

theorem buildassignmentvector_length (nR nC : ℕ) (st : St α) :
    (buildassignmentvector nR nC st).length = nR := by
  simp [buildassignmentvector]

theorem buildassignmentvector_bounds (nR nC : ℕ) (st : St α) :
    ∀ a ∈ buildassignmentvector nR nC st, -1 ≤ a ∧ a < (nC : ℤ) := by
  intro a ha
  simp only [buildassignmentvector, List.mem_map] at ha
  obtain ⟨r, _, hr⟩ := ha
  rcases hfind : firstIdx nC (fun c => st.star r c) with _ | c
  · rw [hfind] at hr
    simp only at hr
    omega
  · rw [hfind] at hr
    simp only at hr
    have hc := firstIdx_some_lt hfind
    omega

theorem assignmentoptimal_shape (fuel nR nC : ℕ) (eps hmax : α) (d : ℕ → ℕ → α)
    {asg : List ℤ} {cost : α}
    (h : assignmentoptimal fuel nR nC eps hmax d = some (asg, cost)) :
    asg.length = nR ∧ (∀ a ∈ asg, -1 ≤ a ∧ a < (nC : ℤ)) ∧
    cost = computeassignmentcost nR d asg := by
  simp only [assignmentoptimal] at h
  rw [Option.map_eq_some'] at h
  obtain ⟨stf, _, heq⟩ := h
  rw [Prod.mk.injEq] at heq
  obtain ⟨h1, h2⟩ := heq
  subst h1
  refine ⟨buildassignmentvector_length nR nC stf,
    buildassignmentvector_bounds nR nC stf, h2.symm⟩

/-- Shape of the totalized solver result used inside the tracker. -/
theorem solveT_shape (fuel nR nC : ℕ) (eps hmax : α) (d : ℕ → ℕ → α) :
    ((assignmentoptimal fuel nR nC eps hmax d).getD (List.replicate nR (-1), 0)).1.length = nR ∧
    ∀ a ∈ ((assignmentoptimal fuel nR nC eps hmax d).getD (List.replicate nR (-1), 0)).1,
      -1 ≤ a ∧ a < (nC : ℤ) := by
  rcases hopt : assignmentoptimal fuel nR nC eps hmax d with _ | pr
  · simp only [Option.getD_none]
    refine ⟨List.length_replicate _ _, ?_⟩
    intro a ha
    have := List.eq_of_mem_replicate ha
    omega
  · obtain ⟨h1, h2, _⟩ := assignmentoptimal_shape fuel nR nC eps hmax d hopt
    simp only [Option.getD_some]
    exact ⟨h1, h2⟩

end Munkres

namespace DS

theorem foldl_pairs_append (P : ℕ → Bool) (f g : ℕ → ℕ) :
    ∀ (L : List ℕ) (acc : List ℕ × List ℕ),
      L.foldl (fun acc2 i => if P i then (acc2.1 ++ [f i], acc2.2 ++ [g i]) else acc2) acc =
        (acc.1 ++ (L.filter P).map f, acc.2 ++ (L.filter P).map g) := by
  intro L
  induction L with
  | nil => intro acc; simp
  | cons i L ih =>
    intro acc
    rw [List.foldl_cons]
    by_cases h : P i
    · rw [if_pos h, ih]
      simp [List.filter_cons, h]
    · rw [if_neg h, ih]
      simp [List.filter_cons, h]

theorem acceptPairs_eq (cost : List (List ℝ)) (asg : List ℤ) (oi bi : List ℕ) :
    acceptPairs cost asg oi bi =
      (((List.range asg.length).filter fun i => !decide (asg.getD i (-1) < 0) &&
          decide ((cost.getD i []).getD (asg.getD i (-1)).toNat 0 < 200)).map
          (fun i => bi.getD (asg.getD i (-1)).toNat 0),
       ((List.range asg.length).filter fun i => !decide (asg.getD i (-1) < 0) &&
          decide ((cost.getD i []).getD (asg.getD i (-1)).toNat 0 < 200)).map
          (fun i => oi.getD i 0)) := by
  unfold acceptPairs
  have hfun : (fun (acc : List ℕ × List ℕ) i =>
      let c := asg.getD i (-1)
      if c < 0 then acc
      else if (cost.getD i []).getD c.toNat 0 < 200 then
        (acc.1 ++ [bi.getD c.toNat 0], acc.2 ++ [oi.getD i 0])
      else acc) =
      (fun (acc2 : List ℕ × List ℕ) i =>
        if (!decide (asg.getD i (-1) < 0) &&
            decide ((cost.getD i []).getD (asg.getD i (-1)).toNat 0 < 200)) then
          (acc2.1 ++ [bi.getD (asg.getD i (-1)).toNat 0], acc2.2 ++ [oi.getD i 0])
        else acc2) := by
    funext acc i
    simp only [List.getD_eq_getElem?_getD]
    set c := asg[i]?.getD (-1) with hc
    set w := (cost[i]?.getD [])[c.toNat]?.getD 0 with hw
    clear_value c w
    by_cases h1 : c < 0
    · simp [h1]
    · by_cases h2 : w < 200
      · simp [h1, h2]
      · simp [h1, h2]
  rw [hfun, foldl_pairs_append]
  simp

end DS

namespace DS

theorem acceptPairs_lengths (cost : List (List ℝ)) (asg : List ℤ) (oi bi : List ℕ) :
    (acceptPairs cost asg oi bi).1.length = (acceptPairs cost asg oi bi).2.length := by
  rw [acceptPairs_eq]
  simp

theorem acceptPairs_objects_sub (cost : List (List ℝ)) (asg : List ℤ) (oi bi : List ℕ)
    (hlen : asg.length = oi.length) :
    ∀ x ∈ (acceptPairs cost asg oi bi).2, x ∈ oi := by
  rw [acceptPairs_eq]
  intro x hx
  simp only [List.mem_map, List.mem_filter, List.mem_range] at hx
  obtain ⟨i, ⟨hi, _⟩, hx⟩ := hx
  have hilen : i < oi.length := hlen ▸ hi
  rw [← hx, List.getD_eq_getElem oi 0 hilen]
  exact List.getElem_mem hilen

theorem acceptPairs_objects_nodup (cost : List (List ℝ)) (asg : List ℤ) (oi bi : List ℕ)
    (hlen : asg.length = oi.length) (hnd : oi.Nodup) :
    (acceptPairs cost asg oi bi).2.Nodup := by
  rw [acceptPairs_eq]
  apply List.Nodup.map_on
  · intro x hx y hy hxy
    have hx2 : x < oi.length := hlen ▸ (List.mem_range.mp (List.mem_of_mem_filter hx))
    have hy2 : y < oi.length := hlen ▸ (List.mem_range.mp (List.mem_of_mem_filter hy))
    rw [List.getD_eq_getElem oi 0 hx2, List.getD_eq_getElem oi 0 hy2] at hxy
    exact (List.Nodup.getElem_inj_iff hnd).mp hxy
  · exact (List.nodup_range _).filter _

theorem acceptPairs_boxes_sub (cost : List (List ℝ)) (asg : List ℤ) (oi bi : List ℕ)
    (hbound : ∀ a ∈ asg, a < (bi.length : ℤ)) :
    ∀ x ∈ (acceptPairs cost asg oi bi).1, x ∈ bi := by
  rw [acceptPairs_eq]
  intro x hx
  simp only [List.mem_map, List.mem_filter, List.mem_range] at hx
  obtain ⟨i, ⟨hi, hcond⟩, hx⟩ := hx
  have hmem : asg.getD i (-1) ∈ asg := by
    rw [List.getD_eq_getElem asg (-1) hi]
    exact List.getElem_mem hi
  have hb := hbound _ hmem
  have hnonneg : ¬ asg.getD i (-1) < 0 := by
    rcases Bool.and_eq_true_iff.mp hcond with ⟨h1, _⟩
    simpa using h1
  have hlt : (asg.getD i (-1)).toNat < bi.length := by omega
  rw [← hx, List.getD_eq_getElem bi 0 hlt]
  exact List.getElem_mem hlt

theorem foldl_upd_length (boxes : List Box) (prs : List (ℕ × ℕ)) :
    ∀ os : List TrackObj,
      (prs.foldl (fun os2 p => os2.set p.1
        (track_update (os2.getD p.1 junkTrack) (boxes.getD p.2 junkBox))) os).length
      = os.length := by
  induction prs with
  | nil => intro os; rfl
  | cons p prs ih =>
    intro os
    rw [List.foldl_cons, ih, List.length_set]

theorem foldl_upd_getD (boxes : List Box) (prs : List (ℕ × ℕ)) :
    ∀ os : List TrackObj, (prs.map Prod.fst).Nodup → ∀ k, k < os.length →
      ((k ∉ prs.map Prod.fst →
        (prs.foldl (fun os2 p => os2.set p.1
          (track_update (os2.getD p.1 junkTrack) (boxes.getD p.2 junkBox))) os).getD k junkTrack
        = os.getD k junkTrack) ∧
       (k ∈ prs.map Prod.fst → ∃ b,
        (prs.foldl (fun os2 p => os2.set p.1
          (track_update (os2.getD p.1 junkTrack) (boxes.getD p.2 junkBox))) os).getD k junkTrack
        = track_update (os.getD k junkTrack) b)) := by
  induction prs with
  | nil =>
    intro os _ k hk
    exact ⟨fun _ => rfl, fun h => absurd h (by simp)⟩
  | cons p prs ih =>
    intro os hnd k hk
    have hmapcons : (p :: prs).map Prod.fst = p.1 :: prs.map Prod.fst := rfl
    rw [hmapcons] at hnd
    have hnd2 : (prs.map Prod.fst).Nodup := (List.nodup_cons.mp hnd).2
    have hni : p.1 ∉ prs.map Prod.fst := (List.nodup_cons.mp hnd).1
    have hk2 : k < (os.set p.1 (track_update (os.getD p.1 junkTrack) (boxes.getD p.2 junkBox))).length := by
      rwa [List.length_set]
    rw [List.foldl_cons]
    constructor
    · intro hkn
      rw [hmapcons] at hkn
      have hkni : k ≠ p.1 := fun h => hkn (by simp [h])
      have hknt : k ∉ prs.map Prod.fst := fun h => hkn (List.mem_cons_of_mem _ h)
      rw [(ih _ hnd2 k hk2).1 hknt]
      rw [List.getD_eq_getElem?_getD, List.getElem?_set_ne (fun h => hkni h.symm),
        ← List.getD_eq_getElem?_getD]
    · intro hkm
      rw [hmapcons] at hkm
      rcases List.mem_cons.mp hkm with h | h
      · subst h
        refine ⟨boxes.getD p.2 junkBox, ?_⟩
        rw [(ih _ hnd2 p.1 hk2).1 hni]
        rw [List.getD_eq_getElem?_getD, List.getElem?_set_self hk, Option.getD_some]
      · obtain ⟨b, hb⟩ := (ih _ hnd2 k hk2).2 h
        have hkp : k ≠ p.1 := fun he => hni (he ▸ h)
        refine ⟨b, ?_⟩
        rw [hb]
        congr 1
        rw [List.getD_eq_getElem?_getD, List.getElem?_set_ne (fun he => hkp he.symm),
          ← List.getD_eq_getElem?_getD]

end DS

namespace DS

theorem costMatrix_length (objects : List TrackObj) (oi bi : List ℕ) (boxes : List Box) :
    (costMatrix objects oi bi boxes).length = oi.length := by
  simp [costMatrix]

theorem costMatrix_headI_length (objects : List TrackObj) (oi bi : List ℕ)
    (boxes : List Box) (hne : oi ≠ []) :
    (costMatrix objects oi bi boxes).headI.length = bi.length := by
  rcases oi with _ | ⟨x, xs⟩
  · exact absurd rfl hne
  · simp [costMatrix]

theorem tracker_match_shape (f : ℕ) (objects : List TrackObj) (oi bi : List ℕ)
    (boxes : List Box) (hne : oi ≠ []) :
    ∃ asg : List ℤ, tracker_match f objects oi bi boxes =
        some (acceptPairs (costMatrix objects oi bi boxes) asg oi bi) ∧
      asg.length = oi.length ∧ ∀ a ∈ asg, -1 ≤ a ∧ a < (bi.length : ℤ) := by
  unfold tracker_match
  have hemp : (costMatrix objects oi bi boxes).isEmpty = false := by
    simp [costMatrix, List.isEmpty_iff, hne]
  rw [if_neg (by simp [hemp])]
  refine ⟨_, rfl, ?_, ?_⟩
  · have := (Munkres.solveT_shape f (costMatrix objects oi bi boxes).length
      ((costMatrix objects oi bi boxes).headI).length Munkres.dblEpsilon Munkres.dblMax
      (fun r c => ((costMatrix objects oi bi boxes).getD r []).getD c 0)).1
    rw [this, costMatrix_length]
  · intro a ha
    have := (Munkres.solveT_shape f (costMatrix objects oi bi boxes).length
      ((costMatrix objects oi bi boxes).headI).length Munkres.dblEpsilon Munkres.dblMax
      (fun r c => ((costMatrix objects oi bi boxes).getD r []).getD c 0)).2 a ha
    rwa [costMatrix_headI_length objects oi bi boxes hne] at this

end DS

namespace DS

theorem cascadeStep_char (f : ℕ) (boxes : List Box) (s s' : CascadeSt)
    (sl : TrackState × ℕ) (hstep : cascadeStep f boxes s sl = some s')
    (hO : s.unmatched_objects.Sorted (· < ·))
    (hB : s.unmatched_boxes.Sorted (· < ·))
    (hOlen : ∀ i ∈ s.unmatched_objects, i < s.objects.length) :
    s'.objects.length = s.objects.length ∧
    s'.unmatched_objects.Sorted (· < ·) ∧
    s'.unmatched_boxes.Sorted (· < ·) ∧
    (∀ i ∈ s'.unmatched_objects, i ∈ s.unmatched_objects) ∧
    (∀ i ∈ s'.unmatched_boxes, i ∈ s.unmatched_boxes) ∧
    (∀ k, k < s.objects.length →
      (s'.objects.getD k junkTrack = s.objects.getD k junkTrack ∨
       (k ∈ s.unmatched_objects ∧ k ∉ s'.unmatched_objects ∧
        ∃ b, s'.objects.getD k junkTrack =
          track_update (s.objects.getD k junkTrack) b))) := by
  unfold cascadeStep at hstep
  split at hstep
  · rename_i hemp
    rw [Option.some.injEq] at hstep
    subst hstep
    exact ⟨rfl, hO, hB, fun i h => h, fun i h => h, fun k _ => Or.inl rfl⟩
  · rename_i hemp
    dsimp only at hstep
    split at hstep
    · rw [Option.some.injEq] at hstep
      subst hstep
      exact ⟨rfl, hO, hB, fun i h => h, fun i h => h, fun k _ => Or.inl rfl⟩
    · rename_i hcand
      set oi := s.unmatched_objects.filter fun i =>
        decide ((s.objects.getD i junkTrack).time_since_update = (sl.2 : ℤ) + 1) &&
        decide ((s.objects.getD i junkTrack).state = sl.1) with hoi
      have hoine : oi ≠ [] := fun h => hcand (by rw [h]; rfl)
      obtain ⟨asg, hm, hlen, hbound⟩ :=
        tracker_match_shape f s.objects oi s.unmatched_boxes boxes hoine
      rw [hm, Option.map_some', Option.some.injEq] at hstep
      set AP := acceptPairs (costMatrix s.objects oi s.unmatched_boxes boxes) asg
        oi s.unmatched_boxes with hAP
      have hnd_unO : s.unmatched_objects.Nodup := sorted_lt_nodup hO
      have hnd_oi : oi.Nodup := hnd_unO.filter _
      have hoi_sub : ∀ x ∈ oi, x ∈ s.unmatched_objects := fun x hx =>
        List.mem_of_mem_filter hx
      have hsub_mO : ∀ x ∈ AP.2, x ∈ oi :=
        acceptPairs_objects_sub _ asg oi s.unmatched_boxes hlen
      have hnd_mO : AP.2.Nodup :=
        acceptPairs_objects_nodup _ asg oi s.unmatched_boxes hlen hnd_oi
      have hsub_mB : ∀ x ∈ AP.1, x ∈ s.unmatched_boxes :=
        acceptPairs_boxes_sub _ asg oi s.unmatched_boxes fun a ha => (hbound a ha).2
      have hlen_AP : AP.1.length = AP.2.length := acceptPairs_lengths _ asg oi _
      have hzipfst : (AP.2.zip AP.1).map Prod.fst = AP.2 :=
        List.map_fst_zip AP.2 AP.1 (le_of_eq hlen_AP.symm)
      have hmemO : ∀ i, i ∈ symmDiff (mkSet s.unmatched_objects) (mkSet AP.2) ↔
          (i ∈ s.unmatched_objects ∧ i ∉ AP.2) := by
        intro i
        rw [mem_symmDiff _ _ (sorted_mkSet _) (sorted_mkSet _) i]
        constructor
        · rintro (⟨h1, h2⟩ | ⟨h1, h2⟩)
          · exact ⟨(mem_mkSet _ _).mp h1, fun h => h2 ((mem_mkSet _ _).mpr h)⟩
          · exact absurd ((mem_mkSet _ _).mpr (hoi_sub _ (hsub_mO _ ((mem_mkSet _ _).mp h1)))) h2
        · rintro ⟨h1, h2⟩
          exact Or.inl ⟨(mem_mkSet _ _).mpr h1, fun h => h2 ((mem_mkSet _ _).mp h)⟩
      have hmemB : ∀ i, i ∈ symmDiff (mkSet AP.1) (mkSet s.unmatched_boxes) ↔
          (i ∈ s.unmatched_boxes ∧ i ∉ AP.1) := by
        intro i
        rw [mem_symmDiff _ _ (sorted_mkSet _) (sorted_mkSet _) i]
        constructor
        · rintro (⟨h1, h2⟩ | ⟨h1, h2⟩)
          · exact absurd ((mem_mkSet _ _).mpr (hsub_mB _ ((mem_mkSet _ _).mp h1))) h2
          · exact ⟨(mem_mkSet _ _).mp h1, fun h => h2 ((mem_mkSet _ _).mpr h)⟩
        · rintro ⟨h1, h2⟩
          exact Or.inr ⟨(mem_mkSet _ _).mpr h1, fun h => h2 ((mem_mkSet _ _).mp h)⟩
      subst hstep
      refine ⟨?_, ?_, ?_, ?_, ?_, ?_⟩
      · exact foldl_upd_length boxes _ s.objects
      · exact sorted_symmDiff _ _ (sorted_mkSet _) (sorted_mkSet _)
      · exact sorted_symmDiff _ _ (sorted_mkSet _) (sorted_mkSet _)
      · intro i hi
        exact ((hmemO i).mp hi).1
      · intro i hi
        exact ((hmemB i).mp hi).1
      · intro k hk
        have hndzip : ((AP.2.zip AP.1).map Prod.fst).Nodup := by
          rw [hzipfst]; exact hnd_mO
        have hchar := foldl_upd_getD boxes (AP.2.zip AP.1) s.objects hndzip k hk
        by_cases hkm : k ∈ AP.2
        · right
          refine ⟨hoi_sub _ (hsub_mO _ hkm), ?_, ?_⟩
          · intro hcon
            exact ((hmemO k).mp hcon).2 hkm
          · exact hchar.2 (by rw [hzipfst]; exact hkm)
        · left
          exact hchar.1 (by rw [hzipfst]; exact hkm)

end DS

namespace DS

theorem cascade_foldlM_char (f : ℕ) (boxes : List Box) :
    ∀ (L : List (TrackState × ℕ)) (s s' : CascadeSt),
      L.foldlM (cascadeStep f boxes) s = some s' →
      s.unmatched_objects.Sorted (· < ·) →
      s.unmatched_boxes.Sorted (· < ·) →
      (∀ i ∈ s.unmatched_objects, i < s.objects.length) →
      s'.objects.length = s.objects.length ∧
      s'.unmatched_objects.Sorted (· < ·) ∧
      s'.unmatched_boxes.Sorted (· < ·) ∧
      (∀ i ∈ s'.unmatched_objects, i ∈ s.unmatched_objects) ∧
      (∀ i ∈ s'.unmatched_boxes, i ∈ s.unmatched_boxes) ∧
      (∀ k, k < s.objects.length →
        (s'.objects.getD k junkTrack = s.objects.getD k junkTrack ∨
         (k ∈ s.unmatched_objects ∧ k ∉ s'.unmatched_objects ∧
          ∃ b, s'.objects.getD k junkTrack =
            track_update (s.objects.getD k junkTrack) b))) := by
  intro L
  induction L with
  | nil =>
    intro s s' hfold hO hB hlen
    rw [show List.foldlM (cascadeStep f boxes) s [] = some s from rfl,
      Option.some.injEq] at hfold
    subst hfold
    exact ⟨rfl, hO, hB, fun i h => h, fun i h => h, fun k _ => Or.inl rfl⟩
  | cons hd tl ih =>
    intro s s' hfold hO hB hlen
    rw [show List.foldlM (cascadeStep f boxes) s (hd :: tl) =
      (cascadeStep f boxes s hd).bind (fun s1 => List.foldlM (cascadeStep f boxes) s1 tl)
      from rfl] at hfold
    rcases hstep : cascadeStep f boxes s hd with _ | s1
    · rw [hstep] at hfold
      simp at hfold
    · rw [hstep, Option.some_bind] at hfold
      obtain ⟨c1, c2, c3, c4, c5, c6⟩ := cascadeStep_char f boxes s s1 hd hstep hO hB hlen
      have hlen1 : ∀ i ∈ s1.unmatched_objects, i < s1.objects.length := by
        intro i hi
        rw [c1]
        exact hlen i (c4 i hi)
      obtain ⟨d1, d2, d3, d4, d5, d6⟩ := ih s1 s' hfold c2 c3 hlen1
      refine ⟨by rw [d1, c1], d2, d3, fun i hi => c4 i (d4 i hi),
        fun i hi => c5 i (d5 i hi), ?_⟩
      intro k hk
      have hk1 : k < s1.objects.length := by rw [c1]; exact hk
      rcases d6 k hk1 with hde | ⟨hdm, hdn, b, hdu⟩
      · rcases c6 k hk with hce | ⟨hcm, hcn, b, hcu⟩
        · exact Or.inl (by rw [hde, hce])
        · refine Or.inr ⟨hcm, ?_, b, by rw [hde, hcu]⟩
          intro hcon
          exact hcn (d4 k hcon)
      · rcases c6 k hk with hce | ⟨hcm, hcn, b', hcu⟩
        · exact Or.inr ⟨c4 k hdm, hdn, b, by rw [hdu, hce]⟩
        · exact absurd hdm hcn

end DS

namespace DS

theorem mark_missed_parts (t : TrackObj) :
    (mark_missed t).id = t.id ∧
    (mark_missed t).time_since_update = t.time_since_update ∧
    (mark_missed t).hits = t.hits ∧
    (mark_missed t).age = t.age ∧
    (mark_missed t).trace = t.trace := by
  unfold mark_missed
  split
  · exact ⟨rfl, rfl, rfl, rfl, rfl⟩
  · exact ⟨rfl, rfl, rfl, rfl, rfl⟩

theorem track_update_parts (t : TrackObj) (b : Box) :
    (track_update t b).id = t.id ∧
    (track_update t b).time_since_update = 0 ∧
    (track_update t b).hits = t.hits + 1 ∧
    (track_update t b).age = t.age ∧
    (track_update t b).trace = (if 80 < (t.trace ++ [b]).length
      then (t.trace ++ [b]).tail else t.trace ++ [b]) :=
  ⟨rfl, rfl, rfl, rfl, rfl⟩

theorem track_predict_parts (t : TrackObj) :
    (track_predict t).id = t.id ∧
    (track_predict t).time_since_update = t.time_since_update + 1 ∧
    (track_predict t).hits = t.hits ∧
    (track_predict t).age = t.age + 1 ∧
    (track_predict t).trace = t.trace :=
  ⟨rfl, rfl, rfl, rfl, rfl⟩

theorem birthList_ids_pairwise (boxes : List Box) :
    ∀ (L : List ℕ) (n : ℤ), ((birthList boxes n L).map TrackObj.id).Pairwise (· < ·) := by
  intro L
  induction L with
  | nil => intro n; simp [birthList]
  | cons i L ih =>
    intro n
    simp only [birthList, List.map_cons]
    rw [List.pairwise_cons]
    refine ⟨?_, ih (n + 1)⟩
    intro x hx
    simp only [List.mem_map] at hx
    obtain ⟨t, ht, hx⟩ := hx
    have h6 := (birthList_forall boxes L (n + 1) t ht).2.2.2.2.2.1
    have hid : (newTrackObj (boxes.getD i junkBox) n).id = n := rfl
    rw [hid, ← hx]
    omega

end DS

namespace DS

theorem tracker_update_some_elim (f : ℕ) (T : Tracker) (B : List Box) (T' : Tracker)
    (h : tracker_update f T B = some T') :
    ∃ s' : CascadeSt,
      List.foldlM (cascadeStep f B) ⟨T.objects.map track_predict, List.range B.length,
        List.range (T.objects.map track_predict).length⟩ cascadePairs = some s' ∧
      T' = ⟨((s'.unmatched_objects.foldl
          (fun os i => os.set i (mark_missed (os.getD i junkTrack))) s'.objects)
        ++ birthList B T.id_next s'.unmatched_boxes).filter
          (fun t => decide (t.state ≠ TrackState.Deleted)),
        T.id_next + s'.unmatched_boxes.length⟩ := by
  unfold tracker_update at h
  dsimp only at h
  rw [Option.map_eq_some'] at h
  obtain ⟨s', h1, h2⟩ := h
  refine ⟨s', h1, ?_⟩
  rw [← h2, foldl_births B s'.unmatched_boxes _ T.id_next]

end DS

namespace DS

theorem getD_map_lt {l : List TrackObj} {f2 : TrackObj → TrackObj} {k : ℕ}
    (h : k < l.length) (d d' : TrackObj) : (l.map f2).getD k d = f2 (l.getD k d') := by
  rw [List.getD_eq_getElem _ _ (by simpa using h), List.getD_eq_getElem _ _ h,
    List.getElem_map]

theorem cascade_init_char (f : ℕ) (B : List Box) (T : Tracker) (s' : CascadeSt)
    (hfold : List.foldlM (cascadeStep f B) ⟨T.objects.map track_predict,
      List.range B.length, List.range (T.objects.map track_predict).length⟩
      cascadePairs = some s') :
    s'.objects.length = T.objects.length ∧
    s'.unmatched_objects.Sorted (· < ·) ∧
    s'.unmatched_boxes.Sorted (· < ·) ∧
    (∀ i ∈ s'.unmatched_objects, i < T.objects.length) ∧
    (∀ i ∈ s'.unmatched_boxes, i < B.length) ∧
    (∀ k, k < T.objects.length →
      (s'.objects.getD k junkTrack = track_predict (T.objects.getD k junkTrack) ∨
       (k ∈ s'.unmatched_objects →False) ∧
        ∃ b, s'.objects.getD k junkTrack =
          track_update (track_predict (T.objects.getD k junkTrack)) b)) := by
  obtain ⟨c1, c2, c3, c4, c5, c6⟩ := cascade_foldlM_char f B cascadePairs _ s' hfold
    (List.pairwise_lt_range _) (List.pairwise_lt_range _)
    (fun i hi => List.mem_range.mp hi)
  have hlen0 : (T.objects.map track_predict).length = T.objects.length :=
    List.length_map _ _
  refine ⟨by rw [c1, hlen0], c2, c3,
    fun i hi => by have := List.mem_range.mp (c4 i hi); rwa [hlen0] at this,
    fun i hi => List.mem_range.mp (c5 i hi), ?_⟩
  intro k hk
  have hk0 : k < (T.objects.map track_predict).length := by rwa [hlen0]
  have hmap : (T.objects.map track_predict).getD k junkTrack =
      track_predict (T.objects.getD k junkTrack) := getD_map_lt hk _ _
  rcases c6 k hk0 with he | ⟨_, hn, b, hu⟩
  · left
    rw [he, hmap]
  · right
    exact ⟨fun hmem => hn hmem, b, by rw [hu, hmap]⟩

end DS

namespace DS

theorem objs1_entry_char (f : ℕ) (B : List Box) (T : Tracker) (s' : CascadeSt)
    (hfold : List.foldlM (cascadeStep f B) ⟨T.objects.map track_predict,
      List.range B.length, List.range (T.objects.map track_predict).length⟩
      cascadePairs = some s') :
    ((s'.unmatched_objects.foldl
      (fun os i => os.set i (mark_missed (os.getD i junkTrack))) s'.objects).length
      = T.objects.length) ∧
    ∀ k, k < T.objects.length → ∃ u : TrackObj,
      ((s'.unmatched_objects.foldl
        (fun os i => os.set i (mark_missed (os.getD i junkTrack))) s'.objects).getD
          k junkTrack = u ∨
       (s'.unmatched_objects.foldl
        (fun os i => os.set i (mark_missed (os.getD i junkTrack))) s'.objects).getD
          k junkTrack = mark_missed u) ∧
      (u = track_predict (T.objects.getD k junkTrack) ∨
       ∃ b, u = track_update (track_predict (T.objects.getD k junkTrack)) b) := by
  obtain ⟨c1, c2, c3, c4, c5, c6⟩ := cascade_init_char f B T s' hfold
  constructor
  · rw [foldl_set_length, c1]
  · intro k hk
    have hk' : k < s'.objects.length := by rwa [c1]
    have hgd := foldl_set_getD mark_missed s'.unmatched_objects s'.objects
      (sorted_lt_nodup c2) k hk'
    refine ⟨s'.objects.getD k junkTrack, ?_, ?_⟩
    · by_cases hkm : k ∈ s'.unmatched_objects
      · right
        rw [hgd, if_pos hkm]
      · left
        rw [hgd, if_neg hkm]
    · rcases c6 k hk with he | ⟨_, b, hu⟩
      · exact Or.inl he
      · exact Or.inr ⟨b, hu⟩

/-- Claim C6: after every `update` call the live track table contains no
Deleted track, the track ids are pairwise distinct and strictly increasing in
creation order, each id stays below the `id_next_` counter, and every genuinely
new track receives an id at least the pre-call counter value (new tracks get
consecutive counter values, and the counter only grows). -/
theorem update_id_invariants (f : ℕ) (T : Tracker) (B : List Box)
    (hInv : IdInv T) :
    ∀ T' ∈ tracker_update f T B,
      IdInv T' ∧ NoDeleted T' ∧ T.id_next ≤ T'.id_next ∧
      (∀ t ∈ T'.objects, t.id ∉ T.objects.map TrackObj.id → T.id_next ≤ t.id) := by
  intro T' hmem
  obtain ⟨s', hfold, hT'⟩ := tracker_update_some_elim f T B T' (Option.mem_def.mp hmem)
  obtain ⟨hlen1, hentry⟩ := objs1_entry_char f B T s' hfold
  have hidmap : (s'.unmatched_objects.foldl
      (fun os i => os.set i (mark_missed (os.getD i junkTrack))) s'.objects).map
        TrackObj.id = T.objects.map TrackObj.id := by
    apply List.ext_getElem
    · rw [List.length_map, List.length_map, hlen1]
    · intro n h1 h2
      rw [List.getElem_map, List.getElem_map]
      have hn : n < T.objects.length := by
        rwa [List.length_map] at h2
      obtain ⟨u, hu1, hu2⟩ := hentry n hn
      have hid_u : u.id = (T.objects.getD n junkTrack).id := by
        rcases hu2 with h | ⟨b, h⟩
        · rw [h, (track_predict_parts _).1]
        · rw [h, (track_update_parts _ _).1, (track_predict_parts _).1]
      have hobjs1 : ((s'.unmatched_objects.foldl
          (fun os i => os.set i (mark_missed (os.getD i junkTrack))) s'.objects).getD
            n junkTrack).id = (T.objects.getD n junkTrack).id := by
        rcases hu1 with h | h
        · rw [h, hid_u]
        · rw [h, (mark_missed_parts _).1, hid_u]
      rw [← List.getD_eq_getElem _ junkTrack, ← List.getD_eq_getElem _ junkTrack]
      exact hobjs1
  set objs1 := s'.unmatched_objects.foldl
    (fun os i => os.set i (mark_missed (os.getD i junkTrack))) s'.objects with hobjs1def
  set births := birthList B T.id_next s'.unmatched_boxes with hbirths
  have hids_app : (objs1 ++ births).map TrackObj.id =
      T.objects.map TrackObj.id ++ births.map TrackObj.id := by
    rw [List.map_append, hidmap]
  have hbirth_mem : ∀ t ∈ births, T.id_next ≤ t.id ∧
      t.id < T.id_next + s'.unmatched_boxes.length ∧ t.state = TrackState.Tentative := by
    intro t ht
    obtain ⟨h1, _, _, _, _, h6, h7⟩ := birthList_forall B s'.unmatched_boxes T.id_next t ht
    exact ⟨h6, h7, h1⟩
  have hmemT' : ∀ t ∈ T'.objects, t ∈ objs1 ∨ t ∈ births := by
    intro t ht
    rw [hT'] at ht
    simp only at ht
    have := List.mem_of_mem_filter ht
    exact List.mem_append.mp this
  have hid_of_objs1 : ∀ t ∈ objs1, t.id ∈ T.objects.map TrackObj.id := by
    intro t ht
    rw [← hidmap]
    exact List.mem_map_of_mem TrackObj.id ht
  refine ⟨⟨?_, ?_⟩, ?_, ?_, ?_⟩
  · -- pairwise ids
    rw [hT']
    simp only
    have hsub : ((objs1 ++ births).filter
        (fun t => decide (t.state ≠ TrackState.Deleted))).map TrackObj.id |>.Sublist
        ((objs1 ++ births).map TrackObj.id) :=
      List.Sublist.map TrackObj.id (List.filter_sublist _)
    apply List.Pairwise.sublist hsub
    rw [hids_app]
    rw [List.pairwise_append]
    refine ⟨hInv.1, ?_, ?_⟩
    · exact birthList_ids_pairwise B s'.unmatched_boxes T.id_next
    · intro x hx y hy
      simp only [List.mem_map] at hx hy
      obtain ⟨tx, htx, hxid⟩ := hx
      obtain ⟨ty, hty, hyid⟩ := hy
      have h1 := hInv.2 tx htx
      have h2 := (hbirth_mem ty hty).1
      omega
  · -- id bound
    rw [hT']
    simp only
    intro t ht
    have := List.mem_of_mem_filter ht
    rcases List.mem_append.mp this with h | h
    · have := hid_of_objs1 t h
      simp only [List.mem_map] at this
      obtain ⟨t0, ht0, hid0⟩ := this
      have := hInv.2 t0 ht0
      have hnn : (0 : ℤ) ≤ s'.unmatched_boxes.length := by positivity
      omega
    · have := (hbirth_mem t h).2.1
      exact this
  · -- no deleted
    intro t ht
    rw [hT'] at ht
    simp only at ht
    have := (List.mem_filter.mp ht).2
    simpa using this
  · -- id_next monotone
    rw [hT']
    simp only
    have hnn : (0 : ℤ) ≤ s'.unmatched_boxes.length := by positivity
    omega
  · -- new ids at or above the old counter
    intro t ht hnew
    rcases hmemT' t ht with h | h
    · exact absurd (hid_of_objs1 t h) hnew
    · exact (hbirth_mem t h).1
end DS

namespace DS

theorem track_update_trace_le (t : TrackObj) (b : Box) (h : t.trace.length ≤ 80) :
    (track_update t b).trace.length ≤ 80 := by
  have := (track_update_parts t b).2.2.2.2
  rw [this]
  by_cases hc : 80 < (t.trace ++ [b]).length
  · rw [if_pos hc, List.length_tail, List.length_append]
    simp
    omega
  · rw [if_neg hc]
    omega

/-- Claim C7: every live track after any `update` call satisfies
`time_since_update >= 0`, `hits >= 1`, `age >= hits`, and its trace holds at
most 80 boxes; moreover `TrackObjectImpl::update` appends exactly one box to
the trace and pops the front when the size exceeds 80. -/
theorem update_counter_invariants (f : ℕ) (T : Tracker) (B : List Box)
    (hInv : CounterInv T) :
    (∀ T' ∈ tracker_update f T B, CounterInv T') ∧
    (∀ (t : TrackObj) (b : Box), (track_update t b).trace =
      if 80 < (t.trace ++ [b]).length then (t.trace ++ [b]).tail
      else t.trace ++ [b]) := by
  refine ⟨?_, fun t b => (track_update_parts t b).2.2.2.2⟩
  intro T' hmem
  obtain ⟨s', hfold, hT'⟩ := tracker_update_some_elim f T B T' (Option.mem_def.mp hmem)
  obtain ⟨hlen1, hentry⟩ := objs1_entry_char f B T s' hfold
  intro t ht
  rw [hT'] at ht
  simp only at ht
  have hmem2 := List.mem_of_mem_filter ht
  rcases List.mem_append.mp hmem2 with h | h
  · -- t comes from an existing track
    obtain ⟨n, hn, hget⟩ := List.mem_iff_getElem.mp h
    have hnT : n < T.objects.length := by
      rw [← hlen1]
      exact hn
    obtain ⟨u, hu1, hu2⟩ := hentry n hnT
    have hget2 : (s'.unmatched_objects.foldl
        (fun os i => os.set i (mark_missed (os.getD i junkTrack))) s'.objects).getD
          n junkTrack = t := by
      rw [List.getD_eq_getElem _ junkTrack hn, hget]
    have ht0mem : T.objects.getD n junkTrack ∈ T.objects := by
      rw [List.getD_eq_getElem _ junkTrack hnT]
      exact List.getElem_mem hnT
    obtain ⟨b1, b2, b3, b4⟩ := hInv _ ht0mem
    have hu_base : 0 ≤ u.time_since_update ∧ 1 ≤ u.hits ∧ u.hits ≤ u.age ∧
        u.trace.length ≤ 80 := by
      rcases hu2 with hup | ⟨b, hup⟩
      · obtain ⟨_, p2, p3, p4, p5⟩ := track_predict_parts (T.objects.getD n junkTrack)
        rw [hup]
        rw [p2, p3, p4, p5]
        exact ⟨by omega, b2, by omega, b4⟩
      · obtain ⟨_, p2, p3, p4, p5⟩ := track_predict_parts (T.objects.getD n junkTrack)
        obtain ⟨_, q2, q3, q4, _⟩ := track_update_parts
          (track_predict (T.objects.getD n junkTrack)) b
        rw [hup]
        refine ⟨by rw [q2], by rw [q3, p3]; omega, by rw [q3, q4, p3, p4]; omega, ?_⟩
        apply track_update_trace_le
        rw [p5]
        exact b4
    rcases hu1 with h1 | h1
    · rw [hget2] at h1
      rw [h1]
      exact hu_base
    · rw [hget2] at h1
      subst h1
      obtain ⟨_, m2, m3, m4, m5⟩ := mark_missed_parts u
      rw [m2, m3, m4, m5]
      exact hu_base
  · obtain ⟨_, h2, h3, h4, h5, _, _⟩ := birthList_forall B s'.unmatched_boxes T.id_next t h
    rw [h2, h3, h4, h5]
    refine ⟨le_refl _, le_refl _, le_refl _, by omega⟩

end DS

namespace DS

theorem getD_map_gen {β γ : Type} (l : List β) (g : β → γ) {k : ℕ}
    (h : k < l.length) (d : γ) (d' : β) : (l.map g).getD k d = g (l.getD k d') := by
  rw [List.getD_eq_getElem _ _ (by simpa using h), List.getD_eq_getElem _ _ h,
    List.getElem_map]

theorem costMatrix_cell (objects : List TrackObj) (oi bi : List ℕ) (boxes : List Box)
    {i j : ℕ} (hi : i < oi.length) (hj : j < bi.length) :
    ((costMatrix objects oi bi boxes).getD i []).getD j 0 =
      (if chi2inv95_4 < ma_distance (objects.getD (oi.getD i 0) junkTrack).mean
          (objects.getD (oi.getD i 0) junkTrack).cov
          (toXYAH (boxes.getD (bi.getD j 0) junkBox)) false then 100000
       else distance (objects.getD (oi.getD i 0) junkTrack).last_position
          (boxes.getD (bi.getD j 0) junkBox)) := by
  unfold costMatrix
  rw [getD_map_gen oi _ hi [] 0, getD_map_gen bi _ hj 0 0]

theorem gated_cell (T : Tracker) (B : List Box)
    (hgate : ∀ t ∈ T.objects.map track_predict, ∀ b ∈ B,
      chi2inv95_4 < ma_distance t.mean t.cov (toXYAH b) false)
    (oi bi : List ℕ) {i j : ℕ} (hi : i < oi.length) (hj : j < bi.length)
    (hoi : ∀ x ∈ oi, x < (T.objects.map track_predict).length)
    (hbi : ∀ x ∈ bi, x < B.length) :
    ((costMatrix (T.objects.map track_predict) oi bi B).getD i []).getD j 0 = 100000 := by
  rw [costMatrix_cell _ oi bi B hi hj]
  rw [if_pos]
  apply hgate
  · have h1 : oi.getD i 0 ∈ oi := by
      rw [List.getD_eq_getElem _ _ hi]
      exact List.getElem_mem hi
    have h2 := hoi _ h1
    rw [List.getD_eq_getElem _ junkTrack h2]
    exact List.getElem_mem h2
  · have h1 : bi.getD j 0 ∈ bi := by
      rw [List.getD_eq_getElem _ _ hj]
      exact List.getElem_mem hj
    have h2 := hbi _ h1
    rw [List.getD_eq_getElem _ junkBox h2]
    exact List.getElem_mem h2

theorem gated_acceptPairs_nil (T : Tracker) (B : List Box)
    (hgate : ∀ t ∈ T.objects.map track_predict, ∀ b ∈ B,
      chi2inv95_4 < ma_distance t.mean t.cov (toXYAH b) false)
    (oi bi : List ℕ) (asg : List ℤ)
    (hlen : asg.length = oi.length)
    (hbound : ∀ a ∈ asg, -1 ≤ a ∧ a < (bi.length : ℤ))
    (hoi : ∀ x ∈ oi, x < (T.objects.map track_predict).length)
    (hbi : ∀ x ∈ bi, x < B.length) :
    acceptPairs (costMatrix (T.objects.map track_predict) oi bi B) asg oi bi = ([], []) := by
  rw [acceptPairs_eq]
  have hfil : ((List.range asg.length).filter fun i => !decide (asg.getD i (-1) < 0) &&
      decide (((costMatrix (T.objects.map track_predict) oi bi B).getD i []).getD
        (asg.getD i (-1)).toNat 0 < 200)) = [] := by
    rw [List.filter_eq_nil_iff]
    intro i hi
    rw [List.mem_range] at hi
    by_cases hneg : asg.getD i (-1) < 0
    · simp only [Bool.and_eq_true_iff, Bool.not_eq_true', decide_eq_false_iff_not, not_lt,
        decide_eq_true_eq]
      rintro ⟨h1, -⟩
      omega
    · have hmem : asg.getD i (-1) ∈ asg := by
        rw [List.getD_eq_getElem _ _ hi]
        exact List.getElem_mem hi
      have hb := hbound _ hmem
      have hlt : (asg.getD i (-1)).toNat < bi.length := by omega
      have hi2 : i < oi.length := by omega
      have := gated_cell T B hgate oi bi hi2 hlt hoi hbi
      rw [Bool.and_eq_true_iff]
      rintro ⟨-, h2⟩
      rw [this] at h2
      norm_num at h2
  rw [hfil]
  rfl

end DS

namespace DS

theorem gated_cascadeStep_fix (f : ℕ) (T : Tracker) (B : List Box)
    (hgate : ∀ t ∈ T.objects.map track_predict, ∀ b ∈ B,
      chi2inv95_4 < ma_distance t.mean t.cov (toXYAH b) false)
    (s : CascadeSt) (sl : TrackState × ℕ)
    (hobj : s.objects = T.objects.map track_predict)
    (hunO : ∀ x ∈ s.unmatched_objects, x < (T.objects.map track_predict).length)
    (hunB : ∀ x ∈ s.unmatched_boxes, x < B.length)
    (hOs : s.unmatched_objects.Sorted (· < ·))
    (hBs : s.unmatched_boxes.Sorted (· < ·)) :
    cascadeStep f B s sl = some s := by
  unfold cascadeStep
  split
  · rfl
  · dsimp only
    split
    · rfl
    · rename_i hemp hcand
      set oi := s.unmatched_objects.filter fun i =>
        decide ((s.objects.getD i junkTrack).time_since_update = (sl.2 : ℤ) + 1) &&
        decide ((s.objects.getD i junkTrack).state = sl.1) with hoidef
      have hone : oi ≠ [] := by
        intro h
        rw [h] at hcand
        exact hcand rfl
      obtain ⟨asg, hm, hlen, hbound⟩ :=
        tracker_match_shape f s.objects oi s.unmatched_boxes B hone
      rw [hm]
      have hoisub : ∀ x ∈ oi, x < (T.objects.map track_predict).length := by
        intro x hx
        exact hunO x (List.mem_of_mem_filter hx)
      have hap : acceptPairs (costMatrix s.objects oi s.unmatched_boxes B) asg
          oi s.unmatched_boxes = ([], []) := by
        rw [hobj] at *
        exact gated_acceptPairs_nil T B hgate oi s.unmatched_boxes asg hlen hbound hoisub hunB
      rw [hap]
      simp only [Option.map_some', Option.some.injEq]
      rcases s with ⟨os, ub, uo⟩
      dsimp only at *
      congr 1
      · rw [mkSet_nil, symmDiff_nil_left, mkSet_eq_self hBs]
      · rw [mkSet_nil, symmDiff_nil_right, mkSet_eq_self hOs]

theorem gated_cascade_fold (f : ℕ) (T : Tracker) (B : List Box)
    (hgate : ∀ t ∈ T.objects.map track_predict, ∀ b ∈ B,
      chi2inv95_4 < ma_distance t.mean t.cov (toXYAH b) false) :
    ∀ (L : List (TrackState × ℕ)) (s : CascadeSt),
      s.objects = T.objects.map track_predict →
      (∀ x ∈ s.unmatched_objects, x < (T.objects.map track_predict).length) →
      (∀ x ∈ s.unmatched_boxes, x < B.length) →
      s.unmatched_objects.Sorted (· < ·) → s.unmatched_boxes.Sorted (· < ·) →
      L.foldlM (cascadeStep f B) s = some s := by
  intro L
  induction L with
  | nil => intro s _ _ _ _ _; rfl
  | cons hd tl ih =>
    intro s h1 h2 h3 h4 h5
    simp only [List.foldlM]
    rw [gated_cascadeStep_fix f T B hgate s hd h1 h2 h3 h4 h5]
    exact ih s h1 h2 h3 h4 h5

theorem gated_update_closed (f : ℕ) (T : Tracker) (B : List Box)
    (hgate : ∀ t ∈ T.objects.map track_predict, ∀ b ∈ B,
      chi2inv95_4 < ma_distance t.mean t.cov (toXYAH b) false) :
    tracker_update f T B =
      some ⟨((T.objects.map track_predict).map mark_missed).filter
          (fun t => decide (t.state ≠ TrackState.Deleted)) ++
          birthList B T.id_next (List.range B.length),
        T.id_next + B.length⟩ := by
  unfold tracker_update
  dsimp only
  rw [gated_cascade_fold f T B hgate cascadePairs
    ⟨T.objects.map track_predict, List.range B.length,
      List.range (T.objects.map track_predict).length⟩ rfl
    (by intro x hx; exact List.mem_range.mp hx)
    (by intro x hx; exact List.mem_range.mp hx)
    (sorted_range _) (sorted_range _)]
  simp only [Option.map_some', Option.some.injEq]
  rw [foldl_set_range_map mark_missed (T.objects.map track_predict)]
  rw [foldl_births B (List.range B.length) _ T.id_next]
  rw [List.filter_append]
  congr 2
  · apply List.filter_eq_self.mpr
    intro t ht
    have := (birthList_forall B (List.range B.length) T.id_next t ht).1
    simp [this]
  · simp

end DS

namespace DS

theorem vec8_four {a0 a1 a2 a3 a4 a5 a6 a7 : ℝ} :
    (![a0, a1, a2, a3, a4, a5, a6, a7]) (4 : Fin 8) = a4 := rfl

theorem vec8_five {a0 a1 a2 a3 a4 a5 a6 a7 : ℝ} :
    (![a0, a1, a2, a3, a4, a5, a6, a7]) (5 : Fin 8) = a5 := rfl

theorem vec8_six {a0 a1 a2 a3 a4 a5 a6 a7 : ℝ} :
    (![a0, a1, a2, a3, a4, a5, a6, a7]) (6 : Fin 8) = a6 := rfl

theorem vec8_seven {a0 a1 a2 a3 a4 a5 a6 a7 : ℝ} :
    (![a0, a1, a2, a3, a4, a5, a6, a7]) (7 : Fin 8) = a7 := rfl

theorem gatePred_mean : (track_predict gateTrack).mean = ![0, 0, 0, 20, 0, 0, 0, 0] := by
  show (kf_predict gateTrack.mean gateTrack.cov).1 = _
  unfold kf_predict
  dsimp only
  funext i
  fin_cases i <;>
  · simp [gateTrack, motion_mat, Matrix.mulVec, Matrix.dotProduct,
      Fin.sum_univ_eight, Matrix.of_apply, Matrix.vecHead, Matrix.vecTail,
      Function.comp]
    try norm_num [show ((3 : Fin 8) : ℕ) = 3 from rfl,
      show ((4 : Fin 8) : ℕ) = 4 from rfl, show ((5 : Fin 8) : ℕ) = 5 from rfl,
      show ((6 : Fin 8) : ℕ) = 6 from rfl, show ((7 : Fin 8) : ℕ) = 7 from rfl,
      vec8_four, vec8_five, vec8_six, vec8_seven]

theorem gatePred_cov : (track_predict gateTrack).cov =
    Matrix.diagonal ![1, 1, 1 / 100, 1, 4, 4, 1 / 4, 4] := by
  show (kf_predict gateTrack.mean gateTrack.cov).2 = _
  unfold kf_predict
  dsimp only
  rw [show gateTrack.cov = 0 from rfl, Matrix.mul_zero, Matrix.zero_mul, zero_add]
  refine congrArg Matrix.diagonal ?_
  funext i
  fin_cases i <;>
  · simp [gateTrack, std_weight_position, std_weight_velocity,
      Matrix.vecHead, Matrix.vecTail]
    try norm_num [vec8_four, vec8_five, vec8_six, vec8_seven]

theorem gateProj_fst :
    (project (track_predict gateTrack).mean (track_predict gateTrack).cov).1 =
      ![0, 0, 0, 20] := by
  rw [show (project (track_predict gateTrack).mean (track_predict gateTrack).cov).1 =
    update_mat.mulVec (track_predict gateTrack).mean from rfl, gatePred_mean]
  funext i
  fin_cases i <;>
  · simp [update_mat, Matrix.mulVec, Matrix.dotProduct, Fin.sum_univ_eight,
      Matrix.of_apply, Matrix.vecHead, Matrix.vecTail, Function.comp]
    try norm_num [show ((3 : Fin 4) : ℕ) = 3 from rfl,
      show ((3 : Fin 8) : ℕ) = 3 from rfl, show ((4 : Fin 8) : ℕ) = 4 from rfl,
      show ((5 : Fin 8) : ℕ) = 5 from rfl, show ((6 : Fin 8) : ℕ) = 6 from rfl,
      show ((7 : Fin 8) : ℕ) = 7 from rfl,
      vec8_four, vec8_five, vec8_six, vec8_seven]

theorem gateProj_snd :
    (project (track_predict gateTrack).mean (track_predict gateTrack).cov).2 =
      !![2, 0, 0, 0; 0, 2, 0, 0; 0, 0, 13 / 50, 0; 0, 0, 0, 2] := by
  rw [show (project (track_predict gateTrack).mean (track_predict gateTrack).cov).2 =
    update_mat * (track_predict gateTrack).cov * update_mat.transpose +
      Matrix.diagonal (fun i =>
        ((![(std_weight_position : ℝ) * (track_predict gateTrack).mean 3,
            (std_weight_position : ℝ) * (track_predict gateTrack).mean 3, 5e-1,
            (std_weight_position : ℝ) * (track_predict gateTrack).mean 3] : Fin 4 → ℝ) i) ^ 2)
    from rfl, gatePred_mean, gatePred_cov]
  ext i j
  fin_cases i <;> fin_cases j <;>
  · simp +decide [update_mat, Matrix.mul_apply, Fin.sum_univ_succ,
      Matrix.of_apply, Matrix.transpose_apply, Matrix.diagonal,
      Matrix.cons_val_zero, Matrix.cons_val_succ, Matrix.vecHead,
      Matrix.vecTail, Function.comp, Fin.val_succ, Fin.val_zero,
      std_weight_position]
    try norm_num

theorem gateChol :
    cholesky4 (!![2, 0, 0, 0; 0, 2, 0, 0; 0, 0, 13 / 50, 0; 0, 0, 0, 2]) =
      !![Real.sqrt 2, 0, 0, 0; 0, Real.sqrt 2, 0, 0;
         0, 0, Real.sqrt (13 / 50), 0; 0, 0, 0, Real.sqrt 2] := by
  unfold cholesky4
  norm_num [Matrix.vecHead, Matrix.vecTail]

theorem gateCholInv :
    (!![Real.sqrt 2, 0, 0, 0; 0, Real.sqrt 2, 0, 0;
        0, 0, Real.sqrt (13 / 50), 0; 0, 0, 0, Real.sqrt 2] :
      Matrix (Fin 4) (Fin 4) ℝ)⁻¹ =
      !![(Real.sqrt 2)⁻¹, 0, 0, 0; 0, (Real.sqrt 2)⁻¹, 0, 0;
         0, 0, (Real.sqrt (13 / 50))⁻¹, 0; 0, 0, 0, (Real.sqrt 2)⁻¹] := by
  have h2 : Real.sqrt 2 ≠ 0 := by positivity
  have h13 : Real.sqrt (13 / 50) ≠ 0 := by positivity
  apply Matrix.inv_eq_right_inv
  ext i j
  fin_cases i <;> fin_cases j <;>
  · simp [Matrix.mul_apply, Fin.sum_univ_succ, Matrix.cons_val_zero,
      Matrix.cons_val_succ, Matrix.vecHead, Matrix.vecTail, Function.comp,
      Matrix.one_apply, h2, h13]

theorem gate_ma :
    chi2inv95_4 < ma_distance (track_predict gateTrack).mean
      (track_predict gateTrack).cov (toXYAH gateBox) false := by
  have h0 : ma_distance (track_predict gateTrack).mean
      (track_predict gateTrack).cov (toXYAH gateBox) false =
      ∑ j : Fin 4, (∑ i : Fin 4,
        (measVec (toXYAH gateBox) i -
          (project (track_predict gateTrack).mean (track_predict gateTrack).cov).1 i) *
        ((cholesky4 (project (track_predict gateTrack).mean
          (track_predict gateTrack).cov).2)⁻¹) i j) ^ 2 := rfl
  rw [h0, gateProj_fst, gateProj_snd, gateChol, gateCholInv]
  have hm : measVec (toXYAH gateBox) = ![10000, 10, 1, 20] := by
    funext i
    fin_cases i <;>
    · simp [measVec, toXYAH, gateBox, Box.centerX, Box.centerY, Box.width, Box.height]
      try norm_num
  rw [hm]
  have hs2 : Real.sqrt 2 ^ 2 = 2 := Real.sq_sqrt (by norm_num)
  have hs13 : Real.sqrt (13 / 50) ^ 2 = 13 / 50 := Real.sq_sqrt (by norm_num)
  have h2 : (0 : ℝ) < Real.sqrt 2 := by positivity
  have h13 : (0 : ℝ) < Real.sqrt (13 / 50) := by positivity
  have hs2 : Real.sqrt 2 ^ 2 = 2 := Real.sq_sqrt (by norm_num)
  refine lt_of_lt_of_le ?_ (Finset.single_le_sum (fun j _ => sq_nonneg _)
    (Finset.mem_univ (0 : Fin 4)))
  rw [Fin.sum_univ_succ, Fin.sum_univ_succ, Fin.sum_univ_succ, Fin.sum_univ_succ]
  norm_num [Matrix.cons_val_zero, Matrix.cons_val_succ, Matrix.vecHead,
    Matrix.vecTail, Function.comp, chi2inv95_4, Finset.univ_eq_empty,
    Finset.sum_empty]
  rw [mul_pow, inv_pow, hs2]
  norm_num

end DS

namespace DS

theorem costMatrix_gated (objects : List TrackObj) (oi bi : List ℕ) (boxes : List Box)
    {i j : ℕ} (hi : i < oi.length) (hj : j < bi.length)
    (hg : chi2inv95_4 < ma_distance (objects.getD (oi.getD i 0) junkTrack).mean
        (objects.getD (oi.getD i 0) junkTrack).cov
        (toXYAH (boxes.getD (bi.getD j 0) junkBox)) false) :
    ((costMatrix objects oi bi boxes).getD i []).getD j 0 = 100000 := by
  rw [costMatrix_cell _ oi bi boxes hi hj, if_pos hg]

theorem acceptPairs_accept_char (cost : List (List ℝ)) (asg : List ℤ)
    (oi bi : List ℕ) (k : ℕ) (hk : k < (acceptPairs cost asg oi bi).2.length) :
    ∃ i, 0 ≤ asg.getD i (-1) ∧
      (cost.getD i []).getD (asg.getD i (-1)).toNat 0 < 200 ∧
      (acceptPairs cost asg oi bi).2.getD k 0 = oi.getD i 0 ∧
      (acceptPairs cost asg oi bi).1.getD k 0 = bi.getD (asg.getD i (-1)).toNat 0 := by
  rw [acceptPairs_eq] at hk ⊢
  set P : ℕ → Bool := fun i => !decide (asg.getD i (-1) < 0) &&
    decide ((cost.getD i []).getD (asg.getD i (-1)).toNat 0 < 200) with hP
  set F := (List.range asg.length).filter P with hF
  simp only [List.length_map] at hk
  have hmem : F.getD k 0 ∈ F := by
    rw [List.getD_eq_getElem _ _ hk]
    exact List.getElem_mem hk
  have hPF := List.of_mem_filter hmem
  rw [hP] at hPF
  simp only [Bool.and_eq_true_iff, Bool.not_eq_true', decide_eq_false_iff_not,
    not_lt, decide_eq_true_eq] at hPF
  refine ⟨F.getD k 0, hPF.1, hPF.2, ?_, ?_⟩
  · dsimp only
    rw [getD_map_gen F _ hk 0 0]
  · dsimp only
    rw [getD_map_gen F _ hk 0 0]

end DS

namespace DS

/-- Claim C3: in `TrackerImpl::match`, every candidate-track/detection pair
whose squared Mahalanobis distance exceeds `chi2inv95_4 = 9.4877` receives
cost `1e5` in the cost matrix; a solver-assigned row is accepted as a match
only if its cell cost is strictly below `200`; consequently, when every
track/detection pair is gated, `update` produces no matches: every (predicted)
track is marked missed, Deleted tracks are dropped, and every detection
becomes a new track with consecutive ids from `id_next_`. -/
theorem match_gating (f : ℕ) (T : Tracker) (B : List Box)
    (hgate : ∀ t ∈ T.objects.map track_predict, ∀ b ∈ B,
      chi2inv95_4 < ma_distance t.mean t.cov (toXYAH b) false) :
    (∀ (objects : List TrackObj) (oi bi : List ℕ) (boxes : List Box) (i j : ℕ),
      i < oi.length → j < bi.length →
      chi2inv95_4 < ma_distance (objects.getD (oi.getD i 0) junkTrack).mean
          (objects.getD (oi.getD i 0) junkTrack).cov
          (toXYAH (boxes.getD (bi.getD j 0) junkBox)) false →
      ((costMatrix objects oi bi boxes).getD i []).getD j 0 = 100000) ∧
    (∀ (cost : List (List ℝ)) (asg : List ℤ) (oi bi : List ℕ) (k : ℕ),
      k < (acceptPairs cost asg oi bi).2.length →
      ∃ i, 0 ≤ asg.getD i (-1) ∧
        (cost.getD i []).getD (asg.getD i (-1)).toNat 0 < 200 ∧
        (acceptPairs cost asg oi bi).2.getD k 0 = oi.getD i 0 ∧
        (acceptPairs cost asg oi bi).1.getD k 0 = bi.getD (asg.getD i (-1)).toNat 0) ∧
    tracker_update f T B =
      some ⟨((T.objects.map track_predict).map mark_missed).filter
          (fun t => decide (t.state ≠ TrackState.Deleted)) ++
          birthList B T.id_next (List.range B.length),
        T.id_next + B.length⟩ := by
  refine ⟨?_, ?_, gated_update_closed f T B hgate⟩
  · intro objects oi bi boxes i j hi hj hg
    exact costMatrix_gated objects oi bi boxes hi hj hg
  · intro cost asg oi bi k hk
    exact acceptPairs_accept_char cost asg oi bi k hk

/-- The gating claim at the concrete fully-gated input: one Confirmed track at
the origin, one detection 10000 pixels away; the update matches nothing, keeps
the missed track, and births one Tentative track with id `5`. -/
theorem match_gating_witness :
    tracker_update 9 gateTracker [gateBox] =
      some ⟨((gateTracker.objects.map track_predict).map mark_missed).filter
          (fun t => decide (t.state ≠ TrackState.Deleted)) ++
          birthList [gateBox] gateTracker.id_next (List.range 1),
        gateTracker.id_next + 1⟩ :=
  (match_gating 9 gateTracker [gateBox] (by
    intro t ht b hb
    simp only [gateTracker, List.map_cons, List.map_nil, List.mem_singleton] at ht hb
    subst ht
    subst hb
    exact gate_ma)).2.2

end DS

namespace DS

/-- The id-invariant claim at a concrete input: updating the empty table (with
`id_next_ = 1`) on one detection yields the single new track with id `1` and
counter `2`, satisfying all the id invariants. -/
theorem update_id_invariants_witness :
    IdInv ⟨[], 1⟩ ∧
    (IdInv ⟨[newTrackObj gateBox 1], 2⟩ ∧ NoDeleted ⟨[newTrackObj gateBox 1], 2⟩ ∧
     (1 : ℤ) ≤ (⟨[newTrackObj gateBox 1], 2⟩ : Tracker).id_next ∧
     ∀ t ∈ (⟨[newTrackObj gateBox 1], 2⟩ : Tracker).objects,
       t.id ∉ (⟨[], 1⟩ : Tracker).objects.map TrackObj.id → (1 : ℤ) ≤ t.id) :=
  ⟨⟨List.Pairwise.nil, by simp⟩,
   update_id_invariants 9 ⟨[], 1⟩ [gateBox] ⟨List.Pairwise.nil, by simp⟩
     ⟨[newTrackObj gateBox 1], 2⟩
     (by
       rw [Option.mem_def, tracker_update_empty_table 9 1 [gateBox]]
       rfl)⟩

/-- The counter-invariant claim at a concrete input: the empty table satisfies
the invariants vacuously, and every update from it preserves them. -/
theorem update_counter_invariants_witness :
    CounterInv ⟨[], 1⟩ ∧
    ((∀ T' ∈ tracker_update 9 ⟨[], 1⟩ [gateBox], CounterInv T') ∧
     (∀ (t : TrackObj) (b : Box), (track_update t b).trace =
       if 80 < (t.trace ++ [b]).length then (t.trace ++ [b]).tail
       else t.trace ++ [b])) :=
  ⟨by intro t ht; simp at ht,
   update_counter_invariants 9 ⟨[], 1⟩ [gateBox] (by intro t ht; simp at ht)⟩

end DS

namespace Munkres

theorem pathCol_succ (nR nC : ℕ) (star prime : ℕ → ℕ → Bool) (c0 k : ℕ) :
    pathCol nR nC star prime c0 (k + 1) =
      pathCol nR nC star prime (nextCol nR nC star prime c0) k := by
  unfold pathCol
  rw [Function.iterate_succ_apply]

theorem pathNs_shift (nR nC : ℕ) (star prime : ℕ → ℕ → Bool) {c0 sr : ℕ}
    (hsr : fsr nR star c0 = some sr) :
    ∀ (k : ℕ) (ns : ℕ → ℕ → Bool),
      pathNs nR nC star prime ns c0 (k + 1) =
        pathNs nR nC star prime
          (upd2 (upd2 ns sr c0 false) sr (fpc nC prime sr) true)
          (nextCol nR nC star prime c0) k := by
  intro k
  induction k with
  | zero =>
    intro ns
    show (match fsr nR star (pathCol nR nC star prime c0 0) with
      | some sr2 => upd2 (upd2 (pathNs nR nC star prime ns c0 0) sr2
          (pathCol nR nC star prime c0 0) false) sr2 (fpc nC prime sr2) true
      | none => pathNs nR nC star prime ns c0 0) = _
    rw [show pathCol nR nC star prime c0 0 = c0 from rfl, hsr]
    rfl
  | succ k ih =>
    intro ns
    show (match fsr nR star (pathCol nR nC star prime c0 (k + 1)) with
      | some sr2 => upd2 (upd2 (pathNs nR nC star prime ns c0 (k + 1)) sr2
          (pathCol nR nC star prime c0 (k + 1)) false) sr2 (fpc nC prime sr2) true
      | none => pathNs nR nC star prime ns c0 (k + 1)) = _
    rw [pathCol_succ, ih ns]
    rfl

theorem augmentGo_chain (nR nC : ℕ) (star prime : ℕ → ℕ → Bool) :
    ∀ (f : ℕ) (ns : ℕ → ℕ → Bool) (c : ℕ) (fin : ℕ → ℕ → Bool),
      augmentGo nR nC star prime f ns c = some fin →
      ∃ K, (∀ k < K, (fsr nR star (pathCol nR nC star prime c k)).isSome) ∧
        fsr nR star (pathCol nR nC star prime c K) = none ∧
        fin = pathNs nR nC star prime ns c K := by
  intro f
  induction f with
  | zero => intro ns c fin h; exact absurd h (by simp [augmentGo])
  | succ f ih =>
    intro ns c fin h
    unfold augmentGo at h
    rcases hsr : firstIdx nR (fun r => star r c) with _ | sr
    · rw [hsr] at h
      simp only [Option.some.injEq] at h
      refine ⟨0, by omega, hsr, h.symm⟩
    · rw [hsr] at h
      dsimp only at h
      obtain ⟨K, hall, hK, hfin⟩ := ih _ _ fin h
      have hnext : nextCol nR nC star prime c = fpc nC prime sr := by
        unfold nextCol
        rw [show fsr nR star c = some sr from hsr]
      refine ⟨K + 1, ?_, ?_, ?_⟩
      · intro k hk
        rcases k with _ | k
        · rw [show pathCol nR nC star prime c 0 = c from rfl,
            show fsr nR star c = some sr from hsr]
          rfl
        · rw [pathCol_succ, hnext]
          exact hall k (by omega)
      · rw [pathCol_succ, hnext]
        exact hK
      · rw [pathNs_shift nR nC star prime hsr K ns, hnext]
        exact hfin

end Munkres

namespace Munkres

theorem pathCol_distinct (nR nC : ℕ) (star prime : ℕ → ℕ → Bool) (c0 K : ℕ)
    (hall : ∀ k < K, (fsr nR star (pathCol nR nC star prime c0 k)).isSome)
    (hK : fsr nR star (pathCol nR nC star prime c0 K) = none) :
    ∀ j k, j < k → k ≤ K →
      pathCol nR nC star prime c0 j ≠ pathCol nR nC star prime c0 k := by
  intro j k hjk hkK heq
  have hiter : ∀ d, pathCol nR nC star prime c0 (d + j) =
      pathCol nR nC star prime c0 (d + k) := by
    intro d
    unfold pathCol at heq ⊢
    rw [Function.iterate_add_apply, Function.iterate_add_apply, heq]
  have h1 := hiter (K - k)
  have h2 : K - k + j < K := by omega
  have h3 := hall _ h2
  rw [h1, show K - k + k = K from by omega, hK] at h3
  exact absurd h3 (by simp)

end Munkres

namespace Munkres

/-- The row whose star is moved INTO the `k`-th path column by step 4: the
newly starred row for the entry column, the previous column's starred row
after that. -/
def addedRow (nR nC : ℕ) (star prime : ℕ → ℕ → Bool) (row c0 : ℕ) : ℕ → ℕ
  | 0 => row
  | k + 1 => (fsr nR star (pathCol nR nC star prime c0 k)).getD 0

theorem pathNs_spec (nR nC : ℕ) (star prime : ℕ → ℕ → Bool) (row c0 K : ℕ)
    (hColOk : ColOk star)
    (hall : ∀ k < K, (fsr nR star (pathCol nR nC star prime c0 k)).isSome)
    (hK : fsr nR star (pathCol nR nC star prime c0 K) = none) :
    ∀ k, k ≤ K →
      ((∀ c, (∀ i, i ≤ k → c ≠ pathCol nR nC star prime c0 i) →
        ∀ r, pathNs nR nC star prime (upd2 star row c0 true) c0 k r c = star r c) ∧
       (∀ i, i < k → ∀ r,
         pathNs nR nC star prime (upd2 star row c0 true) c0 k r
             (pathCol nR nC star prime c0 i) =
           (decide (r = addedRow nR nC star prime row c0 i) &&
            !decide (some r = fsr nR star (pathCol nR nC star prime c0 i)))) ∧
       (∀ r, pathNs nR nC star prime (upd2 star row c0 true) c0 k r
           (pathCol nR nC star prime c0 k) =
         (star r (pathCol nR nC star prime c0 k) ||
          decide (r = addedRow nR nC star prime row c0 k)))) := by
  have dist := pathCol_distinct nR nC star prime c0 K hall hK
  intro k
  induction k with
  | zero =>
    intro _
    refine ⟨?_, by omega, ?_⟩
    · intro c hc r
      have hc0 : c ≠ c0 := hc 0 (by omega)
      show upd2 star row c0 true r c = star r c
      simp only [upd2]
      rw [if_neg (fun h => hc0 h.2)]
    · intro r
      rw [show pathCol nR nC star prime c0 0 = c0 from rfl]
      show upd2 star row c0 true r c0 = _
      simp only [upd2, addedRow]
      by_cases hr : r = row
      · rw [if_pos ⟨hr, by trivial⟩]
        simp [hr]
      · rw [if_neg (fun h => hr h.1)]
        simp [hr]
  | succ k ih =>
    intro hk1
    have hkK : k < K := by omega
    obtain ⟨sr, hsr⟩ := Option.isSome_iff_exists.mp (hall k hkK)
    obtain ⟨iha, ihb, ihc⟩ := ih (by omega)
    have hcnext : pathCol nR nC star prime c0 (k + 1) = fpc nC prime sr := by
      unfold pathCol
      rw [Function.iterate_succ_apply']
      show nextCol nR nC star prime (pathCol nR nC star prime c0 k) = _
      unfold nextCol
      rw [hsr]
    have hstep : pathNs nR nC star prime (upd2 star row c0 true) c0 (k + 1) =
        upd2 (upd2 (pathNs nR nC star prime (upd2 star row c0 true) c0 k)
          sr (pathCol nR nC star prime c0 k) false)
          sr (pathCol nR nC star prime c0 (k + 1)) true := by
      rw [hcnext]
      show (match fsr nR star (pathCol nR nC star prime c0 k) with
        | some sr2 => upd2 (upd2 (pathNs nR nC star prime (upd2 star row c0 true) c0 k)
            sr2 (pathCol nR nC star prime c0 k) false) sr2 (fpc nC prime sr2) true
        | none => pathNs nR nC star prime (upd2 star row c0 true) c0 k) = _
      rw [hsr]
    have hkk1 : pathCol nR nC star prime c0 k ≠ pathCol nR nC star prime c0 (k + 1) :=
      dist k (k + 1) (by omega) hk1
    have hstar_sr : star sr (pathCol nR nC star prime c0 k) = true := by
      have h2 : firstIdx nR (fun r => star r (pathCol nR nC star prime c0 k)) =
        some sr := hsr
      simpa using firstIdx_some_prop h2
    refine ⟨?_, ?_, ?_⟩
    · intro c hc r
      rw [hstep]
      simp only [upd2]
      rw [if_neg (fun h => hc (k + 1) (le_refl _) h.2),
        if_neg (fun h => hc k (by omega) h.2)]
      exact iha c (fun i hi => hc i (by omega)) r
    · intro i hi r
      rcases Nat.lt_or_ge i k with hik | hik
      · rw [hstep]
        simp only [upd2]
        rw [if_neg (fun h => dist i (k + 1) (by omega) hk1 h.2),
          if_neg (fun h => dist i k (by omega) (by omega) h.2)]
        exact ihb i hik r
      · have hieq : i = k := by omega
        subst hieq
        rw [hstep]
        simp only [upd2]
        rw [if_neg (fun h => hkk1 h.2)]
        by_cases hr : r = sr
        · rw [if_pos ⟨hr, by trivial⟩, hsr]
          simp [hr]
        · rw [if_neg (fun h => hr h.1)]
          rw [ihc r, hsr]
          have hns : star r (pathCol nR nC star prime c0 i) = false := by
            by_contra hcon
            rw [Bool.not_eq_false] at hcon
            exact hr (hColOk _ r sr hcon hstar_sr)
          rw [hns]
          simp [hr]
    · intro r
      rw [hstep]
      simp only [upd2]
      have hadd : addedRow nR nC star prime row c0 (k + 1) = sr := by
        show (fsr nR star (pathCol nR nC star prime c0 k)).getD 0 = sr
        rw [hsr]
        rfl
      rw [hadd]
      by_cases hr : r = sr
      · rw [if_pos ⟨hr, by trivial⟩]
        simp [hr]
      · rw [if_neg (fun h => hr h.1),
          if_neg (fun h => hkk1 h.2.symm)]
        rw [iha _ (fun i hi => fun h =>
          dist i (k + 1) (by omega) hk1 h.symm) r]
        simp [hr]

end Munkres

namespace Munkres

theorem pathNs_ok (nR nC : ℕ) (star prime : ℕ → ℕ → Bool) (row c0 K : ℕ)
    (hColOk : ColOk star) (hRowOk : RowOk nR star) (hrow : row < nR)
    (hall : ∀ k < K, (fsr nR star (pathCol nR nC star prime c0 k)).isSome)
    (hK : fsr nR star (pathCol nR nC star prime c0 K) = none) :
    ColOk (pathNs nR nC star prime (upd2 star row c0 true) c0 K) ∧
    RowOk nR (pathNs nR nC star prime (upd2 star row c0 true) c0 K) := by
  obtain ⟨speca, specb, specc⟩ :=
    pathNs_spec nR nC star prime row c0 K hColOk hall hK K (le_refl K)
  have haddlt : ∀ i, i ≤ K → addedRow nR nC star prime row c0 i < nR := by
    intro i hi
    rcases i with _ | i
    · exact hrow
    · obtain ⟨sr, hsr⟩ := Option.isSome_iff_exists.mp (hall i (by omega))
      show (fsr nR star (pathCol nR nC star prime c0 i)).getD 0 < nR
      rw [hsr]
      have h2 : firstIdx nR (fun r => star r (pathCol nR nC star prime c0 i)) =
        some sr := hsr
      exact firstIdx_some_lt h2
  have hKempty : ∀ r, star r (pathCol nR nC star prime c0 K) = false := by
    intro r
    by_cases hr : r < nR
    · have h2 : firstIdx nR (fun r => star r (pathCol nR nC star prime c0 K)) =
        none := hK
      simpa using firstIdx_none h2 r hr
    · by_contra hcon
      rw [Bool.not_eq_false] at hcon
      exact hr (hRowOk r _ hcon)
  constructor
  · intro c r r' h1 h2
    by_cases hex : ∃ i, i ≤ K ∧ c = pathCol nR nC star prime c0 i
    · obtain ⟨i, hiK, hc⟩ := hex
      subst hc
      by_cases hi : i = K
      · subst hi
        rw [specc r] at h1
        rw [specc r'] at h2
        rw [hKempty r] at h1
        rw [hKempty r'] at h2
        simp only [Bool.false_or, decide_eq_true_eq] at h1 h2
        rw [h1, h2]
      · rw [specb i (by omega) r] at h1
        rw [specb i (by omega) r'] at h2
        simp only [Bool.and_eq_true_iff, decide_eq_true_eq] at h1 h2
        rw [h1.1, h2.1]
    · push_neg at hex
      rw [speca c (fun i hi => hex i hi) r] at h1
      rw [speca c (fun i hi => hex i hi) r'] at h2
      exact hColOk c r r' h1 h2
  · intro r c h
    by_cases hex : ∃ i, i ≤ K ∧ c = pathCol nR nC star prime c0 i
    · obtain ⟨i, hiK, hc⟩ := hex
      subst hc
      by_cases hi : i = K
      · subst hi
        rw [specc r, hKempty r] at h
        simp only [Bool.false_or, decide_eq_true_eq] at h
        rw [h]
        exact haddlt _ (le_refl _)
      · rw [specb i (by omega) r] at h
        simp only [Bool.and_eq_true_iff, decide_eq_true_eq] at h
        rw [h.1]
        exact haddlt i hiK
    · push_neg at hex
      rw [speca c (fun i hi => hex i hi) r] at h
      exact hRowOk r c h

variable {α : Type} [LinearOrderedField α]

theorem step4run_ok (nR nC f : ℕ) (st : St α) (row col : ℕ) (st1 : St α)
    (h : step4run nR nC f st row col = some st1)
    (hColOk : ColOk st.star) (hRowOk : RowOk nR st.star) (hrow : row < nR) :
    ColOk st1.star ∧ RowOk nR st1.star := by
  unfold step4run at h
  rw [Option.map_eq_some'] at h
  obtain ⟨ns, hns, hst1⟩ := h
  obtain ⟨K, hall, hK, hfin⟩ := augmentGo_chain nR nC st.star st.prime f _ col ns hns
  have hok := pathNs_ok nR nC st.star st.prime row col K hColOk hRowOk hrow hall hK
  have hstar : st1.star = pathNs nR nC st.star st.prime
      (upd2 st.star row col true) col K := by
    rw [← hst1] at *
    rw [← hfin]
    rfl
  rw [hstar]
  exact hok

end Munkres

namespace Munkres

variable {α : Type} [LinearOrderedField α]

theorem sweepGo_star (nR nC : ℕ) (eps : α) :
    ∀ (cs : List ℕ) (st : St α) (flag : Bool),
      (∀ r c st1, sweepGo nR nC eps cs st flag = .toStep4 r c st1 →
        st1.star = st.star ∧ r < nR) ∧
      (∀ st1 fl, sweepGo nR nC eps cs st flag = .done st1 fl →
        st1.star = st.star) := by
  intro cs
  induction cs with
  | nil =>
    intro st flag
    constructor
    · intro r c st1 h
      exact absurd h (by simp [sweepGo])
    · intro st1 fl h
      rw [show sweepGo nR nC eps [] st flag = .done st flag from rfl] at h
      cases h
      rfl
  | cons c2 cs ih =>
    intro st flag
    constructor
    · intro r c st1 h
      unfold sweepGo at h
      split at h
      · exact (ih st flag).1 r c st1 h
      · split at h
        · exact (ih st flag).1 r c st1 h
        · rename_i hfind
          dsimp only at h
          split at h
          · cases h
            exact ⟨rfl, firstIdx_some_lt hfind⟩
          · rename_i starCol hstarCol
            obtain ⟨h1, h2⟩ := (ih _ true).1 r c st1 h
            exact ⟨h1, h2⟩
    · intro st1 fl h
      unfold sweepGo at h
      split at h
      · exact (ih st flag).2 st1 fl h
      · split at h
        · exact (ih st flag).2 st1 fl h
        · rename_i hfind
          dsimp only at h
          split at h
          · cases h
          · have h3 := (ih _ true).2 st1 fl h
            exact h3

theorem run_ok (nR nC minDim : ℕ) (eps hmax : α) :
    ∀ (f : ℕ) (ph : Phase) (st stf : St α),
      run nR nC minDim eps hmax f ph st = some stf →
      ColOk st.star → RowOk nR st.star →
      (∀ r c, ph = .p4 r c → r < nR) →
      ColOk stf.star ∧ RowOk nR stf.star := by
  intro f
  induction f with
  | zero =>
    intro ph st stf h
    exact absurd h (by simp [run])
  | succ f ih =>
    intro ph st stf h hC hR hp4
    cases ph with
    | p2a =>
      have h2 : run nR nC minDim eps hmax f .p2b (coverStarCols nR nC st) =
        some stf := h
      exact ih .p2b _ stf h2 hC hR (fun r c hrc => by cases hrc)
    | p2b =>
      have h2 : (if countCov nC st = minDim then some st
          else run nR nC minDim eps hmax f .p3 st) = some stf := h
      split at h2
      · cases h2
        exact ⟨hC, hR⟩
      · exact ih .p3 st stf h2 hC hR (fun r c hrc => by cases hrc)
    | p3 =>
      have h2 : (match sweepGo nR nC eps (List.range nC) st false with
        | .toStep4 r c st1 => run nR nC minDim eps hmax f (.p4 r c) st1
        | .done st1 true => run nR nC minDim eps hmax f .p3 st1
        | .done st1 false => run nR nC minDim eps hmax f .p5 st1) = some stf := h
      split at h2
      · rename_i r c st1 heq
        obtain ⟨hstar, hrlt⟩ := (sweepGo_star nR nC eps (List.range nC) st false).1
          r c st1 heq
        exact ih (.p4 r c) st1 stf h2 (by rw [hstar]; exact hC)
          (by rw [hstar]; exact hR)
          (fun r' c' hrc => by cases hrc; exact hrlt)
      · rename_i st1 heq
        have hstar := (sweepGo_star nR nC eps (List.range nC) st false).2 st1 true heq
        exact ih .p3 st1 stf h2 (by rw [hstar]; exact hC) (by rw [hstar]; exact hR)
          (fun r c hrc => by cases hrc)
      · rename_i st1 heq
        have hstar := (sweepGo_star nR nC eps (List.range nC) st false).2 st1 false heq
        exact ih .p5 st1 stf h2 (by rw [hstar]; exact hC) (by rw [hstar]; exact hR)
          (fun r c hrc => by cases hrc)
    | p4 r c =>
      have h2 : (match step4run nR nC (f + 1) st r c with
        | none => (none : Option (St α))
        | some st1 => run nR nC minDim eps hmax f .p2a st1) = some stf := h
      split at h2
      · cases h2
      · rename_i st1 heq
        obtain ⟨hC1, hR1⟩ := step4run_ok nR nC (f + 1) st r c st1 heq hC hR
          (hp4 r c rfl)
        exact ih .p2a st1 stf h2 hC1 hR1 (fun r' c' hrc => by cases hrc)
    | p5 =>
      have h2 : run nR nC minDim eps hmax f .p3 (adjust nR nC hmax st) = some stf := h
      exact ih .p3 _ stf h2 hC hR (fun r c hrc => by cases hrc)

end Munkres

namespace Munkres

variable {α : Type} [LinearOrderedField α]

theorem prelimRows_star (nR nC : ℕ) (st : St α) :
    (prelimRows nR nC st).star = st.star ∧
    (prelimRows nR nC st).covCol = st.covCol ∧
    (prelimRows nR nC st).covRow = st.covRow := by
  unfold prelimRows
  generalize List.range nR = L
  induction L generalizing st with
  | nil => exact ⟨rfl, rfl, rfl⟩
  | cons r L ih => exact ih _

theorem prelimCols_star (nR nC : ℕ) (st : St α) :
    (prelimCols nR nC st).star = st.star ∧
    (prelimCols nR nC st).covCol = st.covCol ∧
    (prelimCols nR nC st).covRow = st.covRow := by
  unfold prelimCols
  generalize List.range nC = L
  induction L generalizing st with
  | nil => exact ⟨rfl, rfl, rfl⟩
  | cons c L ih => exact ih _

theorem starInitRows_fold_ok (nR nC : ℕ) (eps : α) :
    ∀ (L : List ℕ) (st : St α), (∀ r ∈ L, r < nR) →
      ColOk st.star → RowOk nR st.star →
      (∀ r c, st.star r c = true → st.covCol c = true) →
      ColOk (L.foldl (fun s r =>
        match firstIdx nC (fun c => decide (|s.dist r c| < eps) && !s.covCol c) with
        | some c => { s with star := upd2 s.star r c true,
                             covCol := upd1 s.covCol c true }
        | none => s) st).star ∧
      RowOk nR (L.foldl (fun s r =>
        match firstIdx nC (fun c => decide (|s.dist r c| < eps) && !s.covCol c) with
        | some c => { s with star := upd2 s.star r c true,
                             covCol := upd1 s.covCol c true }
        | none => s) st).star := by
  intro L
  induction L with
  | nil => intro st _ hC hR _; exact ⟨hC, hR⟩
  | cons r L ih =>
    intro st hlt hC hR hcov
    rw [List.foldl_cons]
    rcases hfind : firstIdx nC (fun c => decide (|st.dist r c| < eps) && !st.covCol c)
      with _ | c
    · dsimp only
      exact ih st (fun x hx => hlt x (List.mem_cons_of_mem r hx)) hC hR hcov
    · dsimp only
      have hcc : st.covCol c = false := by
        have := firstIdx_some_prop hfind
        simp only [Bool.and_eq_true_iff, Bool.not_eq_true'] at this
        exact this.2
      have hfresh : ∀ r', st.star r' c = false := by
        intro r'
        by_contra hcon
        rw [Bool.not_eq_false] at hcon
        rw [hcov r' c hcon] at hcc
        cases hcc
      apply ih
      · exact fun x hx => hlt x (List.mem_cons_of_mem r hx)
      · intro c' r1 r2 h1 h2
        simp only [upd2] at h1 h2
        by_cases hc' : c' = c
        · subst hc'
          split at h1
          · rename_i hcond
            split at h2
            · rename_i hcond2
              rw [hcond.1, hcond2.1]
            · rw [hfresh r2] at h2
              cases h2
          · rw [hfresh r1] at h1
            cases h1
        · rw [if_neg (fun hh => hc' hh.2)] at h1
          rw [if_neg (fun hh => hc' hh.2)] at h2
          exact hC c' r1 r2 h1 h2
      · intro r1 c1 h1
        simp only [upd2] at h1
        split at h1
        · rename_i hcond
          rw [hcond.1]
          exact hlt r (List.mem_cons_self r L)
        · exact hR r1 c1 h1
      · intro r1 c1 h1
        simp only [upd2] at h1
        simp only [upd1]
        split at h1
        · rename_i hcond
          rw [if_pos hcond.2]
        · by_cases hcc1 : c1 = c
          · rw [if_pos hcc1]
          · rw [if_neg hcc1]
            exact hcov r1 c1 h1

theorem starInitCols_fold_ok (nR nC : ℕ) (eps : α) :
    ∀ (L : List ℕ) (st : St α), L.Nodup →
      (∀ c ∈ L, ∀ r, st.star r c = false) →
      ColOk st.star → RowOk nR st.star →
      ColOk (L.foldl (fun s c =>
        match firstIdx nR (fun r => decide (|s.dist r c| < eps) && !s.covRow r) with
        | some r => { s with star := upd2 s.star r c true,
                             covCol := upd1 s.covCol c true,
                             covRow := upd1 s.covRow r true }
        | none => s) st).star ∧
      RowOk nR (L.foldl (fun s c =>
        match firstIdx nR (fun r => decide (|s.dist r c| < eps) && !s.covRow r) with
        | some r => { s with star := upd2 s.star r c true,
                             covCol := upd1 s.covCol c true,
                             covRow := upd1 s.covRow r true }
        | none => s) st).star := by
  intro L
  induction L with
  | nil => intro st _ _ hC hR; exact ⟨hC, hR⟩
  | cons c L ih =>
    intro st hnd hfresh hC hR
    rw [List.foldl_cons]
    have hnd2 := (List.nodup_cons.mp hnd).2
    have hcnot := (List.nodup_cons.mp hnd).1
    rcases hfind : firstIdx nR (fun r => decide (|st.dist r c| < eps) && !st.covRow r)
      with _ | r
    · dsimp only
      exact ih st hnd2 (fun x hx => hfresh x (List.mem_cons_of_mem c hx)) hC hR
    · dsimp only
      have hrlt : r < nR := firstIdx_some_lt hfind
      apply ih
      · exact hnd2
      · intro c1 hc1 r1
        simp only [upd2]
        rw [if_neg]
        · exact hfresh c1 (List.mem_cons_of_mem c hc1) r1
        · rintro ⟨hh1, hh2⟩
          exact hcnot (hh2 ▸ hc1)
      · intro c' r1 r2 h1 h2
        simp only [upd2] at h1 h2
        by_cases hc' : c' = c
        · subst hc'
          split at h1
          · rename_i hcond
            split at h2
            · rename_i hcond2
              rw [hcond.1, hcond2.1]
            · rw [hfresh c' (List.mem_cons_self c' L) r2] at h2
              cases h2
          · rw [hfresh c' (List.mem_cons_self c' L) r1] at h1
            cases h1
        · rw [if_neg (fun hh => hc' hh.2)] at h1
          rw [if_neg (fun hh => hc' hh.2)] at h2
          exact hC c' r1 r2 h1 h2
      · intro r1 c1 h1
        simp only [upd2] at h1
        split at h1
        · rename_i hcond
          rw [hcond.1]
          exact hrlt
        · exact hR r1 c1 h1

end Munkres

namespace Munkres

variable {α : Type} [LinearOrderedField α]

theorem assignmentoptimal_colok (fuel nR nC : ℕ) (eps hmax : α) (distIn : ℕ → ℕ → α)
    {asg : List ℤ} {cost : α}
    (h : assignmentoptimal fuel nR nC eps hmax distIn = some (asg, cost)) :
    ∃ stf : St α, ColOk stf.star ∧ asg = buildassignmentvector nR nC stf := by
  simp only [assignmentoptimal] at h
  rw [Option.map_eq_some'] at h
  obtain ⟨stf, hrun, heq⟩ := h
  rw [Prod.mk.injEq] at heq
  refine ⟨stf, ?_, heq.1.symm⟩
  set st0 : St α := ⟨distIn, fun _ _ => false, fun _ _ => false,
    fun _ => false, fun _ => false⟩ with hst0
  have hinit : ColOk (if nR ≤ nC then starInitRows nR nC eps (prelimRows nR nC st0)
        else resetRows (starInitCols nR nC eps (prelimCols nR nC st0))).star ∧
      RowOk nR (if nR ≤ nC then starInitRows nR nC eps (prelimRows nR nC st0)
        else resetRows (starInitCols nR nC eps (prelimCols nR nC st0))).star := by
    split
    · have hpre := prelimRows_star nR nC st0
      unfold starInitRows
      apply starInitRows_fold_ok
      · intro r hr
        exact List.mem_range.mp hr
      · rw [hpre.1]
        intro c r r' h1 h2
        cases h1
      · rw [hpre.1]
        intro r c h1
        cases h1
      · rw [hpre.1, hpre.2.1]
        intro r c h1
        cases h1
    · have hpre := prelimCols_star nR nC st0
      show ColOk (starInitCols nR nC eps (prelimCols nR nC st0)).star ∧
        RowOk nR (starInitCols nR nC eps (prelimCols nR nC st0)).star
      unfold starInitCols
      apply starInitCols_fold_ok nR nC eps
      · exact List.nodup_range nC
      · intro c _ r
        rw [hpre.1]
      · rw [hpre.1]
        intro c r r' h1 h2
        cases h1
      · rw [hpre.1]
        intro r c h1
        cases h1
  exact (run_ok nR nC (if nR ≤ nC then nR else nC) eps hmax fuel .p2b _ stf hrun
    hinit.1 hinit.2 (fun r c hrc => by cases hrc)).1

theorem buildassignmentvector_pairwise (nR nC : ℕ) (st : St α) (h : ColOk st.star) :
    (buildassignmentvector nR nC st).Pairwise (fun a b => 0 ≤ a → 0 ≤ b → a ≠ b) := by
  unfold buildassignmentvector
  rw [List.pairwise_map]
  apply List.Pairwise.imp ?_ (List.pairwise_lt_range nR)
  intro r1 r2 hlt h1 h2 heq
  rcases hf1 : firstIdx nC (fun c => st.star r1 c) with _ | c1
  · rw [hf1] at h1
    simp at h1
  · rcases hf2 : firstIdx nC (fun c => st.star r2 c) with _ | c2
    · rw [hf2] at h2
      simp at h2
    · rw [hf1, hf2] at heq
      simp only [Option.some.injEq] at heq
      have hc12 : c1 = c2 := by
        have : ((c1 : ℤ)) = (c2 : ℤ) := heq
        exact_mod_cast this
      subst hc12
      have hs1 : st.star r1 c1 = true := by simpa using firstIdx_some_prop hf1
      have hs2 : st.star r2 c1 = true := by simpa using firstIdx_some_prop hf2
      exact absurd (h c1 r1 r2 hs1 hs2) (by omega)

theorem foldl_add_sum (g : ℕ → α) :
    ∀ (L : List ℕ) (acc : α), L.foldl (fun a r => a + g r) acc = acc + (L.map g).sum := by
  intro L
  induction L with
  | nil => intro acc; simp
  | cons r L ih =>
    intro acc
    rw [List.foldl_cons, ih, List.map_cons, List.sum_cons]
    ring

theorem computeassignmentcost_eq_sum (nR : ℕ) (distIn : ℕ → ℕ → α) (asg : List ℤ) :
    computeassignmentcost nR distIn asg =
      ((List.range nR).map fun r =>
        if 0 ≤ asg.getD r (-1) then distIn r (asg.getD r (-1)).toNat else 0).sum := by
  unfold computeassignmentcost
  have hbody : (fun (acc : α) (r : ℕ) =>
      let c := asg.getD r (-1)
      if 0 ≤ c then acc + distIn r c.toNat else acc) =
      fun acc r => acc + (if 0 ≤ asg.getD r (-1) then distIn r (asg.getD r (-1)).toNat
        else 0) := by
    funext acc r
    dsimp only
    by_cases hc : 0 ≤ asg.getD r (-1)
    · rw [if_pos hc, if_pos hc]
    · rw [if_neg hc, if_neg hc, add_zero]
  rw [hbody, foldl_add_sum]
  rw [zero_add]

end Munkres

/-- Claim C5: for every rectangular nonnegative cost matrix, the assignment
returned by `Solve` is a valid partial matching — it has one entry per row,
each entry lies in `[-1, M)`, and no column index occurs twice among the
non-`-1` entries — and the returned total cost is the sum of the original
matrix cells selected by the assignment. -/
theorem solve_assignment_valid {α : Type} [LinearOrderedField α] (fuel : ℕ)
    (mat : List (List α)) (M : ℕ) (asg : List ℤ) (cost : α)
    (hrect : ∀ row ∈ mat, row.length = M)
    (hnn : ∀ row ∈ mat, ∀ x ∈ row, 0 ≤ x)
    (hsolve : Munkres.Solve fuel mat = some (asg, cost)) :
    asg.length = mat.length ∧
    (∀ a ∈ asg, -1 ≤ a ∧ a < (M : ℤ)) ∧
    asg.Pairwise (fun a b => 0 ≤ a → 0 ≤ b → a ≠ b) ∧
    cost = Munkres.selectedSum mat asg := by
  unfold Munkres.Solve at hsolve
  split at hsolve
  · cases hsolve
  · rename_i hne
    have hM : mat.headI.length = M := by
      rcases mat with _ | ⟨r0, rs⟩
      · simp at hne
      · exact hrect r0 (List.mem_cons_self r0 rs)
    obtain ⟨hlen, hbound, hcost⟩ := Munkres.assignmentoptimal_shape fuel mat.length
      mat.headI.length Munkres.dblEpsilon Munkres.dblMax
      (fun r c => (mat.getD r []).getD c 0) hsolve
    obtain ⟨stf, hColOk, hasg⟩ := Munkres.assignmentoptimal_colok fuel mat.length
      mat.headI.length Munkres.dblEpsilon Munkres.dblMax
      (fun r c => (mat.getD r []).getD c 0) hsolve
    refine ⟨hlen, ?_, ?_, ?_⟩
    · intro a ha
      have := hbound a ha
      omega
    · rw [hasg]
      exact Munkres.buildassignmentvector_pairwise mat.length mat.headI.length
        stf hColOk
    · rw [hcost, Munkres.computeassignmentcost_eq_sum]
      rfl

set_option maxRecDepth 100000 in
unseal Rat.sub Rat.add Rat.mul Rat.inv in
/-- The validity claim at the concrete nonnegative 2×2 matrix `[[3,1],[2,4]]`:
the solver assigns row 0 to column 1 and row 1 to column 0 for total cost 3,
and the returned triple satisfies all the validity properties. -/
theorem solve_assignment_valid_witness :
    (∀ row ∈ [[(3 : ℚ), 1], [2, 4]], row.length = 2) ∧
    (∀ row ∈ [[(3 : ℚ), 1], [2, 4]], ∀ x ∈ row, 0 ≤ x) ∧
    Munkres.Solve 100 [[(3 : ℚ), 1], [2, 4]] = some ([1, 0], 3) ∧
    (([1, 0] : List ℤ).length = [[(3 : ℚ), 1], [2, 4]].length ∧
     (∀ a ∈ ([1, 0] : List ℤ), -1 ≤ a ∧ a < (2 : ℤ)) ∧
     ([1, 0] : List ℤ).Pairwise (fun a b => 0 ≤ a → 0 ≤ b → a ≠ b) ∧
     (3 : ℚ) = Munkres.selectedSum [[(3 : ℚ), 1], [2, 4]] [1, 0]) :=
  ⟨by decide, by decide, by decide,
   solve_assignment_valid 100 [[(3 : ℚ), 1], [2, 4]] 2 [1, 0] 3
     (by decide) (by decide) (by decide)⟩
